import Mathlib

/-!
# CONSENT: alignment piles and de Bruijn graph linking

A shallow embedding of `src/alignmentPiles.cpp` and `src/DBG.cpp`.

* `std::string` is `List Char`; names of sequences are `String`.
* `unsigned` values are natural numbers; every operation that can leave the
  range `[0, 2^32)` in the source is written with an explicit `% 2 ^ 32`
  (`add32`, `sub32`).  The increments `i++` and `curLen++` of the scans are
  plain `+ 1`: they are only reached with `i` below the array length and
  `curLen` below `windowSize`, both `unsigned`.  `size_t` differences are
  `sizeSub` (64 bit).
* `int` values are integers; `toInt32` and `ofInt32` are the two casts.
* A call either returns a value or does not: `Run.ok v`, an
  `std::out_of_range` thrown by `std::string::substr` (`Run.outOfRange`), an
  access outside an array or vector (`Run.outOfBounds`), or a loop that is
  still running when the iteration budget of the model is used up
  (`Run.outOfFuel`).
* `std::unordered_map::operator[]` returns a value-initialised entry for an
  absent key, so both maps are total functions: `MerCounts` gives 0 and
  `Sequences` gives the empty string for a key that was never stored.
-/

namespace Consent

/-! ## Outcomes and machine arithmetic -/

/-- Outcome of running a function of the program. -/
inductive Run (α : Type) where
  | ok (a : α)
  | outOfRange
  | outOfBounds
  | outOfFuel
deriving DecidableEq, Repr

/-- Sequencing of two computations: the first fault stops the run. -/
def Run.bind {α β : Type} (x : Run α) (f : α → Run β) : Run β :=
  match x with
  | .ok a => f a
  | .outOfRange => .outOfRange
  | .outOfBounds => .outOfBounds
  | .outOfFuel => .outOfFuel

instance : Monad Run where
  pure := Run.ok
  bind := Run.bind

/-- Sum of two `unsigned` values. -/
def add32 (a b : Nat) : Nat := (a + b) % 2 ^ 32

/-- Difference of two `unsigned` values. -/
def sub32 (a b : Nat) : Nat := (a + (2 ^ 32 - b % 2 ^ 32)) % 2 ^ 32

/-- Difference `a - b` of two `size_t` values (`a, b < 2 ^ 64`). -/
def sizeSub (a b : Nat) : Nat := if b ≤ a then a - b else a + 2 ^ 64 - b

/-- Cast `(int) x` of an `unsigned` value. -/
def toInt32 (x : Nat) : Int :=
  if x % 2 ^ 32 < 2 ^ 31 then ((x % 2 ^ 32 : Nat) : Int) else ((x % 2 ^ 32 : Nat) : Int) - 2 ^ 32

/-- Conversion of an `int` value to `unsigned`. -/
def ofInt32 (z : Int) : Nat := (z % 2 ^ 32).toNat

/-! ## Strings -/

/-- The call `s.substr(pos)`: throws when `pos > s.size()`. -/
def substrFrom (s : List Char) (pos : Nat) : Run (List Char) :=
  if pos ≤ s.length then .ok (s.drop pos) else .outOfRange

/-- The call `s.substr(pos, len)`: throws when `pos > s.size()`. -/
def substr (s : List Char) (pos len : Nat) : Run (List Char) :=
  if pos ≤ s.length then .ok ((s.drop pos).take len) else .outOfRange

/-- The read `s[i]` of a `std::string`: the terminator at `i = s.size()`. -/
def charAt (s : List Char) (i : Nat) : Run Char :=
  if h : i < s.length then .ok s[i]
  else if i = s.length then .ok (Char.ofNat 0)
  else .outOfBounds

/-! ## Data model -/

/-- Modelled from the spec: the `Alignment` record is declared in a header
that is not among the sources; its fields are the ones the spec lists (query
name, start, end, length; target name, start, end, length; strand flag) under
the names the source uses.  Coordinates are `unsigned`; `strand` is true for a
reverse-strand alignment (the source reverse-complements when it is set). -/
structure Alignment where
  qName : String
  qLength : Nat
  qStart : Nat
  qEnd : Nat
  strand : Bool
  tName : String
  tLength : Nat
  tStart : Nat
  tEnd : Nat
deriving DecidableEq, Repr

/-- Sequence store `std::unordered_map<std::string, std::string>`. -/
abbrev Sequences := String → List Char

/-- Count table `std::unordered_map<std::string, unsigned>`. -/
abbrev MerCounts := List Char → Nat

/-! ## alignmentPiles.cpp : coverage and window positions -/

/-- The loop `for (i = beg; i <= end; i++) coverages[i]++`, with `n`
iterations left and the index at `i`. -/
def incrCoverages (coverages : List Nat) (i : Nat) : Nat → Run (List Nat)
  | 0 => .ok coverages
  | n + 1 =>
    if h : i < coverages.length then
      incrCoverages (coverages.set i (add32 coverages[i] 1)) (i + 1) n
    else .outOfBounds

/-- The loop `for (Alignment al : alignments)` that fills the coverage array. -/
def addAlignments (coverages : List Nat) : List Alignment → Run (List Nat)
  | [] => .ok coverages
  | al :: rest =>
    match incrCoverages coverages al.qStart (al.qEnd + 1 - al.qStart) with
    | .ok coverages1 => addAlignments coverages1 rest
    | .outOfRange => .outOfRange
    | .outOfBounds => .outOfBounds
    | .outOfFuel => .outOfFuel

/-- Coverage array of lines 33-47 (the same code as `getCoverages`, with the
template length given by the caller). -/
def coverageArray (tplLen : Nat) (alignments : List Alignment) : Run (List Nat) :=
  addAlignments (List.replicate tplLen 1) alignments

/-- The function `getCoverages`: the template length is the `qLength` of the
first alignment. -/
def getCoverages (alignments : List Alignment) : Run (List Nat) :=
  match alignments with
  | [] => .outOfBounds
  | al :: _ => coverageArray al.qLength alignments

/-- Forward scan, lines 74-96.  `fuel` bounds the number of iterations. -/
def forwardScan (coverages : List Nat) (tplLen minSupport windowSize : Nat)
    (overlappingWindows : Int) :
    Nat → Nat → Nat → Nat → List (Nat × Nat) → Run (List (Nat × Nat))
  | 0, i, _, _, pilesPos => if i < tplLen then .outOfFuel else .ok pilesPos
  | fuel + 1, i, beg, curLen, pilesPos =>
    if i < tplLen then
      if curLen ≥ windowSize then
        let i1 := if overlappingWindows ≠ 0 then ofInt32 ((i : Int) - overlappingWindows) else i
        match coverages[i1]? with
        | none => .outOfBounds
        | some c =>
          if c < minSupport then
            forwardScan coverages tplLen minSupport windowSize overlappingWindows
              fuel (i1 + 1) (i1 + 1) 0 (pilesPos ++ [(beg, sub32 (add32 beg curLen) 1)])
          else
            forwardScan coverages tplLen minSupport windowSize overlappingWindows
              fuel (i1 + 1) i1 1 (pilesPos ++ [(beg, sub32 (add32 beg curLen) 1)])
      else
        match coverages[i]? with
        | none => .outOfBounds
        | some c =>
          if c < minSupport then
            forwardScan coverages tplLen minSupport windowSize overlappingWindows
              fuel (i + 1) (i + 1) 0 pilesPos
          else
            forwardScan coverages tplLen minSupport windowSize overlappingWindows
              fuel (i + 1) beg (curLen + 1) pilesPos
    else .ok pilesPos

/-- Backward scan, lines 98-119, as a recursion on the index `i`; the loop
runs while `i > 0` and nothing was pushed.  After the push the rest of the
iteration still reads `coverages[i]` and then the loop stops. -/
def backwardScan (coverages : List Nat) (minSupport windowSize : Nat) :
    Nat → Nat → Nat → List (Nat × Nat) → Run (List (Nat × Nat))
  | 0, _, _, pilesPos => .ok pilesPos
  | i + 1, end_, curLen, pilesPos =>
    if curLen ≥ windowSize then
      match coverages[i + 1]? with
      | none => .outOfBounds
      | some _ => .ok (pilesPos ++ [(add32 (sub32 end_ curLen) 1, end_)])
    else
      match coverages[i + 1]? with
      | none => .outOfBounds
      | some c =>
        if c < minSupport then
          backwardScan coverages minSupport windowSize i i 0 pilesPos
        else
          backwardScan coverages minSupport windowSize i end_ (curLen + 1) pilesPos

/-- The function `getAlignmentPilesPositions`. -/
def getAlignmentPilesPositions (fuel tplLen : Nat) (alignments : List Alignment)
    (minSupport windowSize : Nat) (overlappingWindows : Int) : Run (List (Nat × Nat)) :=
  match coverageArray tplLen alignments with
  | .ok coverages =>
    match forwardScan coverages tplLen minSupport windowSize overlappingWindows fuel 0 0 0 [] with
    | .ok pilesPos =>
      backwardScan coverages minSupport windowSize (sub32 tplLen 1) (sub32 tplLen 1) 0 pilesPos
    | .outOfRange => .outOfRange
    | .outOfBounds => .outOfBounds
    | .outOfFuel => .outOfFuel
  | .outOfRange => .outOfRange
  | .outOfBounds => .outOfBounds
  | .outOfFuel => .outOfFuel

/-! ## alignmentPiles.cpp : pile sequences -/

/-- Values of `shift`, `tBeg`, `tEnd` and `length` for one alignment. -/
structure Span where
  shift : Nat
  tBeg : Nat
  tEnd : Nat
  length : Nat
deriving DecidableEq, Repr

/-- Inclusion test of line 183, with `shift` as computed on lines 173-177. -/
def spansWindow (al : Alignment) (qBeg end_ shift : Nat) : Bool :=
  decide (((al.qStart ≤ qBeg ∧ al.qEnd > qBeg) ∨ (end_ ≤ al.qEnd ∧ al.qStart < end_))
    ∧ add32 al.tStart shift ≤ al.tEnd)

/-- Lines 170-177 and 185-204: the target span, the shift and the length
used for an alignment that passed the inclusion test. -/
def remap (al : Alignment) (qBeg end_ : Nat) : Span :=
  let length := add32 (sub32 end_ qBeg) 1
  let shift := if qBeg > al.qStart then sub32 qBeg al.qStart else 0
  if qBeg < al.qStart ∧ al.qEnd < end_ then
    let tBeg := ofInt32 (max 0 (toInt32 al.tStart - (toInt32 al.qStart - toInt32 qBeg)))
    let tEnd := ofInt32 (min (toInt32 al.tLength - 1)
      (toInt32 al.tEnd + (toInt32 end_ - toInt32 al.qEnd)))
    { shift := 0, tBeg := tBeg, tEnd := tEnd, length := add32 (sub32 tEnd tBeg) 1 }
  else if qBeg < al.qStart then
    let tBeg := ofInt32 (max 0 (toInt32 al.tStart - (toInt32 al.qStart - toInt32 qBeg)))
    { shift := 0, tBeg := tBeg, tEnd := al.tEnd,
      length := ofInt32 (min (toInt32 length)
        (min (toInt32 al.tLength - 1) (toInt32 tBeg + toInt32 length - 1) - toInt32 tBeg + 1)) }
  else if al.qEnd < end_ then
    let tEnd := ofInt32 (min (toInt32 al.tLength - 1)
      (toInt32 al.tEnd + (toInt32 end_ - toInt32 al.qEnd)))
    { shift := shift, tBeg := al.tStart, tEnd := tEnd,
      length := ofInt32 (min (toInt32 length)
        (toInt32 tEnd - max 0 (toInt32 tEnd - toInt32 length + 1) + 1)) }
  else
    { shift := shift, tBeg := al.tStart, tEnd := al.tEnd, length := length }

/-- The string `tmpSeq` derived for an alignment that passed the inclusion
test (lines 209-216).  `revComp` stands for `rev_comp::run`, which is not
among the sources. -/
def alignedSeq (revComp : List Char → List Char) (sequences : Sequences)
    (al : Alignment) (qBeg end_ : Nat) : Run (List Char) :=
  let sp := remap al qBeg end_
  match substr (sequences al.tName) sp.tBeg (add32 (sub32 sp.tEnd sp.tBeg) 1) with
  | .ok tmpSeq => substr (if al.strand then revComp tmpSeq else tmpSeq) sp.shift sp.length
  | .outOfRange => .outOfRange
  | .outOfBounds => .outOfBounds
  | .outOfFuel => .outOfFuel

/-- The loop `while (curPos < alignments.size())` of lines 168-223, over the
alignments that are left. -/
def pileLoop (revComp : List Char → List Char) (sequences : Sequences)
    (qBeg end_ merSize : Nat) : List Alignment → List (List Char) → Run (List (List Char))
  | [], curPile => .ok curPile
  | al :: rest, curPile =>
    if spansWindow al qBeg end_ (if qBeg > al.qStart then sub32 qBeg al.qStart else 0) then
      match alignedSeq revComp sequences al qBeg end_ with
      | .ok tmpSeq =>
        if tmpSeq.length ≥ merSize then
          pileLoop revComp sequences qBeg end_ merSize rest (curPile ++ [tmpSeq])
        else
          pileLoop revComp sequences qBeg end_ merSize rest curPile
      | .outOfRange => .outOfRange
      | .outOfBounds => .outOfBounds
      | .outOfFuel => .outOfFuel
    else
      pileLoop revComp sequences qBeg end_ merSize rest curPile

/-- The function `getAlignmentPileSeq`. -/
def getAlignmentPileSeq (revComp : List Char → List Char) (alignments : List Alignment)
    (minSupport windowSize windowOverlap : Nat) (sequences : Sequences)
    (qBeg end_ merSize : Nat) : Run (List (List Char)) :=
  match alignments with
  | [] => .outOfBounds
  | al0 :: _ =>
    let length := add32 (sub32 end_ qBeg) 1
    if sub32 (add32 qBeg length) 1 ≥ (sequences al0.qName).length then .ok []
    else
      match substr (sequences al0.qName) qBeg length with
      | .ok tpl => pileLoop revComp sequences qBeg end_ merSize alignments [tpl]
      | .outOfRange => .outOfRange
      | .outOfBounds => .outOfBounds
      | .outOfFuel => .outOfFuel

/-- The loop `for (std::pair<int, int> p : pilesPos)` of `getAlignmentPiles`. -/
def pilesLoop (revComp : List Char → List Char) (alignments : List Alignment)
    (minSupport windowSize windowOverlap : Nat) (sequences : Sequences) (merSize : Nat) :
    List (Nat × Nat) → List (List (List Char)) → Run (List (List (List Char)))
  | [], piles => .ok piles
  | p :: rest, piles =>
    match getAlignmentPileSeq revComp alignments minSupport windowSize windowOverlap sequences
        (ofInt32 (toInt32 p.1)) (ofInt32 (toInt32 p.2)) merSize with
    | .ok pile =>
      pilesLoop revComp alignments minSupport windowSize windowOverlap sequences merSize
        rest (piles ++ [pile])
    | .outOfRange => .outOfRange
    | .outOfBounds => .outOfBounds
    | .outOfFuel => .outOfFuel

/-- The function `getAlignmentPiles`. -/
def getAlignmentPiles (revComp : List Char → List Char) (fuel : Nat)
    (alignments : List Alignment) (minSupport windowSize windowOverlap : Nat)
    (sequences : Sequences) (merSize : Nat) :
    Run (List (Nat × Nat) × List (List (List Char))) :=
  match alignments with
  | [] => .outOfBounds
  | al0 :: _ =>
    match getAlignmentPilesPositions fuel al0.qLength alignments minSupport windowSize
        (toInt32 windowOverlap) with
    | .ok pilesPos =>
      match pilesLoop revComp alignments minSupport windowSize windowOverlap sequences merSize
          pilesPos [] with
      | .ok piles => .ok (pilesPos, piles)
      | .outOfRange => .outOfRange
      | .outOfBounds => .outOfBounds
      | .outOfFuel => .outOfFuel
    | .outOfRange => .outOfRange
    | .outOfBounds => .outOfBounds
    | .outOfFuel => .outOfFuel

/-! ## DBG.cpp : neighbours -/

/-- Characters visited by `for (char c : "ACGT")`: the string literal is an
array of five `char`, the four bases and the terminating zero. -/
def alphabet : List Char := ['A', 'C', 'G', 'T', Char.ofNat 0]

/-- The call `std::sort` with the comparator `merCounts[n1] > merCounts[n2]`.
The order of elements with equal counts is not fixed by the language; the
model keeps them in their original order (a stable sort, which is what an
insertion sort on at most five elements gives). -/
def sortByCount (merCounts : MerCounts) (neighbours : List (List Char)) : List (List Char) :=
  List.insertionSort (fun n1 n2 => merCounts n2 ≤ merCounts n1) neighbours

/-- The function `getNeighbours`. -/
def getNeighbours (kMer : List Char) (merSize : Nat) (left : Int) (merCounts : MerCounts)
    (solidThresh : Nat) : Run (List (List Char)) :=
  if left = 0 then
    match substrFrom kMer 1 with
    | .ok f =>
      .ok (sortByCount merCounts
        ((alphabet.map (fun c => f ++ [c])).filter (fun n => decide (merCounts n ≥ solidThresh))))
    | .outOfRange => .outOfRange
    | .outOfBounds => .outOfBounds
    | .outOfFuel => .outOfFuel
  else
    match substr kMer 0 (sub32 merSize 1) with
    | .ok f =>
      .ok (sortByCount merCounts
        ((alphabet.map (fun c => c :: f)).filter (fun n => decide (merCounts n ≥ solidThresh))))
    | .outOfRange => .outOfRange
    | .outOfBounds => .outOfBounds
    | .outOfFuel => .outOfFuel

/-! ## DBG.cpp : linear extension -/

/-- New value of `dist` after `dist = dist + it->length() - (curK - 1)`:
`curK - 1` is an `unsigned` difference, the sum and the outer difference are
`size_t`, and the result is stored in an `unsigned`. -/
def distStep (dist len curK : Nat) : Nat := sizeSub (dist + len) (sub32 curK 1) % 2 ^ 32

/-- The `while` loop of `extendLeft`; `fuel` bounds the number of iterations. -/
def extendLeftLoop (merCounts : MerCounts) (curK extLen solidThresh : Nat) :
    Nat → List (List Char) → Nat → List Char → Run (Nat × List Char)
  | 0, neighbours, dist, LR =>
    if neighbours.length = 1 ∧ dist < extLen then .outOfFuel else .ok (dist, LR)
  | fuel + 1, neighbours, dist, LR =>
    match neighbours with
    | [n] =>
      if dist < extLen then do
        let head ← substr n 0 (sizeSub n.length (sub32 curK 1))
        let kMer ← substr (head ++ LR) 0 curK
        let neighbours1 ← getNeighbours kMer curK 1 merCounts solidThresh
        extendLeftLoop merCounts curK extLen solidThresh fuel neighbours1
          (distStep dist n.length curK) (head ++ LR)
      else .ok (dist, LR)
    | _ => .ok (dist, LR)

/-- The function `extendLeft`: returns `dist` and the final value of `LR`. -/
def extendLeft (fuel : Nat) (merCounts : MerCounts) (curK extLen : Nat) (LR : List Char)
    (solidThresh : Nat) : Run (Nat × List Char) := do
  let kMer ← substr LR 0 curK
  let neighbours ← getNeighbours kMer curK 1 merCounts solidThresh
  extendLeftLoop merCounts curK extLen solidThresh fuel neighbours 0 LR

/-- The `while` loop of `extendRight`; `fuel` bounds the number of iterations. -/
def extendRightLoop (merCounts : MerCounts) (curK extLen solidThresh : Nat) :
    Nat → List (List Char) → Nat → List Char → Run (Nat × List Char)
  | 0, neighbours, dist, LR =>
    if neighbours.length = 1 ∧ dist < extLen then .outOfFuel else .ok (dist, LR)
  | fuel + 1, neighbours, dist, LR =>
    match neighbours with
    | [n] =>
      if dist < extLen then do
        let tail ← substrFrom n (sub32 curK 1)
        let kMer ← substrFrom (LR ++ tail) (sizeSub (LR ++ tail).length curK)
        let neighbours1 ← getNeighbours kMer curK 0 merCounts solidThresh
        extendRightLoop merCounts curK extLen solidThresh fuel neighbours1
          (distStep dist n.length curK) (LR ++ tail)
      else .ok (dist, LR)
    | _ => .ok (dist, LR)

/-- The function `extendRight`: returns `dist` and the final value of `LR`. -/
def extendRight (fuel : Nat) (merCounts : MerCounts) (curK extLen : Nat) (LR : List Char)
    (solidThresh : Nat) : Run (Nat × List Char) := do
  let kMer ← substrFrom LR (sizeSub LR.length curK)
  let neighbours ← getNeighbours kMer curK 0 merCounts solidThresh
  extendRightLoop merCounts curK extLen solidThresh fuel neighbours 0 LR

/-! ## DBG.cpp : link -/

/-- Result of a call of `link`: the returned `int`, and the values the call
leaves in `*curBranches` and in `missingPart`. -/
structure LinkOut where
  ret : Int
  curBranches : Nat
  missingPart : List Char
deriving DecidableEq, Repr

/-- Variables of the first `while` loop of `link` (lines 100-122). -/
structure WalkState where
  found : Bool
  neighbours : List (List Char)
  dist : Nat
  resPart1 : List Char
deriving DecidableEq, Repr

/-- Variables at the end of the second `while` loop of `link` (lines 125-146);
`returned` is set when the loop was left through `return 1`. -/
structure BranchState where
  returned : Bool
  found : Bool
  resPart1 : List Char
  curBranches : Nat
  missingPart : List Char
deriving DecidableEq, Repr

/-- First loop of `link`: follow the only neighbour while there is exactly
one.  The iterator is at `neighbours.begin()` whenever the condition is
tested; the final `else` branch of the body cannot be reached. -/
def linkWalk (merCounts : MerCounts) (tgtSeed : List Char) (curK LRLen solidThresh : Nat) :
    Nat → WalkState → Run WalkState
  | 0, s =>
    if s.found = false ∧ s.neighbours.length = 1 ∧ s.dist ≤ LRLen then .outOfFuel else .ok s
  | fuel + 1, s =>
    match s.found, s.neighbours with
    | false, [curRead] =>
      if s.dist ≤ LRLen then do
        let tgtAnchor ← substr tgtSeed 0 curRead.length
        if curRead = tgtAnchor then do
          let c ← charAt curRead (sub32 curK 1)
          linkWalk merCounts tgtSeed curK LRLen solidThresh fuel
            { found := true, neighbours := [curRead], dist := s.dist,
              resPart1 := s.resPart1 ++ [c] }
        else do
          let c ← charAt curRead (sub32 curK 1)
          let srcAnchor ← substrFrom (s.resPart1 ++ [c]) (sizeSub (s.resPart1 ++ [c]).length curK)
          let kMer ← substrFrom srcAnchor (sizeSub srcAnchor.length curK)
          let neighbours1 ← getNeighbours kMer curK 0 merCounts solidThresh
          linkWalk merCounts tgtSeed curK LRLen solidThresh fuel
            { found := false, neighbours := neighbours1,
              dist := distStep s.dist curRead.length curK, resPart1 := s.resPart1 ++ [c] }
      else .ok s
    | _, _ => .ok s

/-- Second loop of `link` over the neighbours from the iterator on, entered
with `found` false; `callLink curBranches dist curExt missingPart` is the
recursive call of `link` at order `merSize`. -/
def linkBranches (callLink : Nat → Nat → List Char → List Char → Run LinkOut)
    (tgtSeed : List Char) (curK dist : Nat) (resPart1 : List Char) :
    List (List Char) → Nat → List Char → Run BranchState
  | [], curBranches, missingPart =>
    .ok { returned := false, found := false, resPart1 := resPart1,
          curBranches := curBranches, missingPart := missingPart }
  | curRead :: rest, curBranches, missingPart => do
    let tgtAnchor ← substr tgtSeed 0 curRead.length
    if curRead = tgtAnchor then do
      let c ← charAt curRead (sub32 curK 1)
      .ok { returned := false, found := true, resPart1 := resPart1 ++ [c],
            curBranches := curBranches, missingPart := missingPart }
    else do
      let c ← charAt curRead (sub32 curK 1)
      let out ← callLink (add32 curBranches 1) (distStep dist curRead.length curK)
        (resPart1 ++ [c]) missingPart
      if out.ret ≠ 0 then
        .ok { returned := true, found := true, resPart1 := resPart1,
              curBranches := out.curBranches, missingPart := out.missingPart }
      else
        linkBranches callLink tgtSeed curK dist resPart1 rest out.curBranches out.missingPart

/-- The function `link`.  `fuel` bounds the depth of the recursion and the
number of iterations of the first loop of each call.  `srcSeed` and `visited`
are passed on and never read. -/
def link (merCounts : MerCounts) (srcSeed tgtSeed : List Char) (curK : Nat)
    (visited : List (List Char)) (curBranches dist : Nat) (curExt missingPart : List Char)
    (merSize LRLen maxBranches solidThresh minOrder : Nat) : Nat → Run LinkOut
  | 0 => .outOfFuel
  | fuel + 1 =>
    if curK < minOrder ∨ curBranches > maxBranches ∨ dist > LRLen then
      .ok { ret := 0, curBranches := curBranches, missingPart := [] }
    else do
      let srcAnchor ← substrFrom curExt (sizeSub curExt.length curK)
      let tgtAnchor ← substr tgtSeed 0 curK
      let kMer ← substrFrom srcAnchor (sizeSub srcAnchor.length curK)
      let neighbours ← getNeighbours kMer curK 0 merCounts solidThresh
      let w ← linkWalk merCounts tgtSeed curK LRLen solidThresh fuel
        { found := decide (srcAnchor = tgtAnchor), neighbours := neighbours, dist := dist,
          resPart1 := curExt }
      let b ←
        (if w.found = false ∧ w.neighbours.length > 1 ∧ w.dist ≤ LRLen then
          linkBranches
            (fun curBranches1 dist1 curExt1 missingPart1 =>
              link merCounts srcSeed tgtSeed merSize visited curBranches1 dist1 curExt1
                missingPart1 merSize LRLen maxBranches solidThresh minOrder fuel)
            tgtSeed curK w.dist w.resPart1 w.neighbours curBranches missingPart
        else
          .ok { returned := false, found := w.found, resPart1 := w.resPart1,
                curBranches := curBranches, missingPart := missingPart })
      if b.returned then
        .ok { ret := 1, curBranches := b.curBranches, missingPart := b.missingPart }
      else if b.found = false then
        .ok { ret := 0, curBranches := b.curBranches, missingPart := b.missingPart }
      else do
        let rest ← substrFrom tgtSeed curK
        .ok { ret := 1, curBranches := b.curBranches, missingPart := b.resPart1 ++ rest }

/-! ## Notions used to state the properties -/

/-- Coverage of template position `i`: one for the template itself plus the
number of alignments with `qStart ≤ i ≤ qEnd`. -/
def coverage (alignments : List Alignment) (i : Nat) : Nat :=
  1 + alignments.countP (fun al => decide (al.qStart ≤ i ∧ i ≤ al.qEnd))

/-- Entry `j` of the coverage array exists and is at least `minSupport`. -/
def covered (coverages : List Nat) (minSupport j : Nat) : Prop :=
  ∃ c, coverages[j]? = some c ∧ minSupport ≤ c

/-- A window that lies in the template, has at least `windowSize` positions
and only positions whose array entry is at least `minSupport`. -/
def goodWindow (coverages : List Nat) (tplLen minSupport windowSize : Nat)
    (w : Nat × Nat) : Prop :=
  w.1 ≤ w.2 ∧ w.2 < tplLen ∧ windowSize ≤ w.2 - w.1 + 1 ∧
    ∀ j, w.1 ≤ j → j ≤ w.2 → covered coverages minSupport j

/-- Last `k` characters of `s` (all of `s` when it is shorter). -/
def lastK (s : List Char) (k : Nat) : List Char := s.drop (s.length - k)

/-- Alignment of the end-to-end scenario: a forward-strand read that matches
the whole 11-base template. -/
def scenarioAlignment : Alignment :=
  { qName := "template", qLength := 11, qStart := 0, qEnd := 10, strand := false,
    tName := "read", tLength := 11, tStart := 0, tEnd := 10 }

/-- Sequence store of the end-to-end scenario: template and read both hold
`AAAACGTGGGG`. -/
def scenarioSequences : Sequences := fun name =>
  if name = "template" then ['A', 'A', 'A', 'A', 'C', 'G', 'T', 'G', 'G', 'G', 'G']
  else if name = "read" then ['A', 'A', 'A', 'A', 'C', 'G', 'T', 'G', 'G', 'G', 'G']
  else []

/-- Count table with a branch at `ACGT`: `CGTA` occurs 5 times and `CGTC` 3
times, every other k-mer is absent. -/
def branchCounts : MerCounts := fun n =>
  if n = ['C', 'G', 'T', 'A'] then 5 else if n = ['C', 'G', 'T', 'C'] then 3 else 0

/-- Count table with the single chain `ACGT → CGTA → GTAC → TACC`. -/
def chainCounts : MerCounts := fun n =>
  if n = ['C', 'G', 'T', 'A'] ∨ n = ['G', 'T', 'A', 'C'] ∨ n = ['T', 'A', 'C', 'C'] then 2 else 0

/-- Count table with a branch at `ACGT` (`CGTA` 5 times, `CGTC` 3 times)
whose second branch goes on to `GTCA`. -/
def detourCounts : MerCounts := fun n =>
  if n = ['C', 'G', 'T', 'A'] then 5 else if n = ['C', 'G', 'T', 'C'] then 3
  else if n = ['G', 'T', 'C', 'A'] then 2 else 0

/-- Count table with one step `ACGT → CGTA` followed by a branch at `CGTA`
(`GTAA` 5 times, `GTAC` 3 times). -/
def walkBranchCounts : MerCounts := fun n =>
  if n = ['C', 'G', 'T', 'A'] then 2 else if n = ['G', 'T', 'A', 'A'] then 5
  else if n = ['G', 'T', 'A', 'C'] then 3 else 0

/-- An alignment that is consistent with the sequence store: its coordinates
are values of `int` as well, its target span lies inside the target, and the
stored target sequence contains the aligned region. -/
def consistentWith (sequences : Sequences) (al : Alignment) : Prop :=
  al.qStart < 2 ^ 31 ∧ al.qEnd < 2 ^ 31 ∧ al.tLength < 2 ^ 31 ∧
    al.tStart ≤ al.tEnd ∧ al.tEnd < al.tLength ∧ al.tEnd < (sequences al.tName).length

/-- Windows in scan order: each window begins after the one before it and
shares at most `ov` positions with it. -/
def windowsOrdered (ov : Nat) (ws : List (Nat × Nat)) : Prop :=
  ws.Pairwise (fun a b => a.1 < b.1 ∧ a.2 + 1 ≤ b.1 + ov)

/-- Number of template positions that lie in both windows. -/
def sharedPositions (a b : Nat × Nat) : Nat := (min a.2 b.2 + 1) - max a.1 b.1

/-- Count table in which `AAAA` is the only k-mer present, so that `AAAA` is
its own and only neighbour. -/
def loopCounts : MerCounts := fun n => if n = ['A', 'A', 'A', 'A'] then 1 else 0

/-- Every base of `ext`, appended to `base`, closes a k-mer whose count is at
least `solidThresh`. -/
def solidPath (merCounts : MerCounts) (solidThresh k : Nat) (base ext : List Char) : Prop :=
  ∀ j, j < ext.length → solidThresh ≤ merCounts (lastK (base ++ ext.take (j + 1)) k)

/-- An alignment of the scenario's read whose query span (5..6) lies strictly
inside the window (2, 9). -/
def insideAlignment : Alignment :=
  { qName := "template", qLength := 11, qStart := 5, qEnd := 6, strand := false,
    tName := "read", tLength := 11, tStart := 5, tEnd := 6 }

theorem add32_of_lt {a b : Nat} (h : a + b < 2 ^ 32) : add32 a b = a + b := by
  unfold add32; omega

theorem sub32_of_le {a b : Nat} (h : b ≤ a) (ha : a < 2 ^ 32) : sub32 a b = a - b := by
  unfold sub32; omega

theorem sizeSub_of_le {a b : Nat} (h : b ≤ a) : sizeSub a b = a - b := by
  unfold sizeSub; simp [h]

theorem ofInt32_sub_of_le {i : Nat} {ov : Int} (h0 : 0 ≤ ov) (h1 : ov ≤ i) (hi : i < 2 ^ 32) :
    ofInt32 ((i : Int) - ov) = i - ov.toNat := by
  unfold ofInt32; omega

/-! ## Coverage array -/

theorem incrCoverages_spec (n : Nat) : ∀ (coverages : List Nat) (i : Nat),
    i + n ≤ coverages.length →
    ∃ cov, incrCoverages coverages i n = .ok cov ∧ cov.length = coverages.length ∧
      ∀ j, cov[j]? = if i ≤ j ∧ j < i + n then (coverages[j]?).map (fun c => add32 c 1)
        else coverages[j]? := by
  induction n with
  | zero =>
    intro coverages i _
    refine ⟨coverages, rfl, rfl, ?_⟩
    intro j
    have : ¬ (i ≤ j ∧ j < i + 0) := by omega
    rw [if_neg this]
  | succ n ih =>
    intro coverages i h
    have hi : i < coverages.length := by omega
    obtain ⟨cov, hrun, hlen, hget⟩ :=
      ih (coverages.set i (add32 coverages[i] 1)) (i + 1) (by simp; omega)
    refine ⟨cov, ?_, ?_, ?_⟩
    · simp only [incrCoverages, hi, dite_true]
      exact hrun
    · simpa using hlen
    · intro j
      rw [hget j, List.getElem?_set]
      by_cases hj : i = j
      · subst hj
        have h1 : ¬ (i + 1 ≤ i ∧ i < i + 1 + n) := by omega
        have h2 : i ≤ i ∧ i < i + (n + 1) := by omega
        simp [h1, h2, hi]
      · by_cases hr : i + 1 ≤ j ∧ j < i + 1 + n
        · have h2 : i ≤ j ∧ j < i + (n + 1) := by omega
          simp [hr, h2, hj]
        · have h2 : ¬ (i ≤ j ∧ j < i + (n + 1)) := by omega
          simp [hr, h2, hj]

theorem addAlignments_spec (tplLen : Nat) : ∀ (alignments : List Alignment)
    (coverages : List Nat) (base : Nat → Nat),
    coverages.length = tplLen →
    (∀ al ∈ alignments, al.qStart ≤ al.qEnd ∧ al.qEnd < tplLen) →
    (∀ j, j < tplLen → coverages[j]? = some (base j % 2 ^ 32)) →
    ∃ cov, addAlignments coverages alignments = .ok cov ∧ cov.length = tplLen ∧
      ∀ j, j < tplLen → cov[j]? = some ((base j +
        alignments.countP (fun al => decide (al.qStart ≤ j ∧ j ≤ al.qEnd))) % 2 ^ 32) := by
  intro alignments
  induction alignments with
  | nil =>
    intro coverages base hlen _ hbase
    exact ⟨coverages, rfl, hlen, by simpa using hbase⟩
  | cons al rest ih =>
    intro coverages base hlen hal hbase
    have hal0 := hal al (List.mem_cons_self _ _)
    obtain ⟨cov1, hrun1, hlen1, hget1⟩ :=
      incrCoverages_spec (al.qEnd + 1 - al.qStart) coverages al.qStart (by omega)
    obtain ⟨cov, hrun, hlen2, hget⟩ := ih cov1
      (fun j => base j + if al.qStart ≤ j ∧ j ≤ al.qEnd then 1 else 0)
      (by omega) (fun a ha => hal a (List.mem_cons_of_mem _ ha))
      (by
        intro j hj
        rw [hget1 j, hbase j hj]
        by_cases hr : al.qStart ≤ j ∧ j ≤ al.qEnd
        · have h2 : al.qStart ≤ j ∧ j < al.qStart + (al.qEnd + 1 - al.qStart) := by omega
          simp only [h2, hr, and_self, if_true, Option.map_some', add32]
          congr 1
          omega
        · have h2 : ¬ (al.qStart ≤ j ∧ j < al.qStart + (al.qEnd + 1 - al.qStart)) := by omega
          simp [h2, hr])
    refine ⟨cov, ?_, hlen2, ?_⟩
    · simp only [addAlignments, hrun1]
      exact hrun
    · intro j hj
      rw [hget j hj, List.countP_cons]
      congr 2
      by_cases hr : al.qStart ≤ j ∧ j ≤ al.qEnd
      · simp [hr]; omega
      · simp [hr]

theorem coverageArray_spec (tplLen : Nat) (alignments : List Alignment)
    (hal : ∀ al ∈ alignments, al.qStart ≤ al.qEnd ∧ al.qEnd < tplLen) :
    ∃ cov, coverageArray tplLen alignments = .ok cov ∧ cov.length = tplLen ∧
      ∀ j, j < tplLen → cov[j]? = some (coverage alignments j % 2 ^ 32) := by
  obtain ⟨cov, hrun, hlen, hget⟩ := addAlignments_spec tplLen alignments
    (List.replicate tplLen 1) (fun _ => 1) (by simp) hal
    (by intro j hj; simp [List.getElem?_replicate, hj])
  exact ⟨cov, hrun, hlen, fun j hj => by rw [hget j hj]; rfl⟩

/-! ## Window positions -/

theorem goodWindow_append {coverages : List Nat} {tplLen minSupport windowSize : Nat}
    {pilesPos : List (Nat × Nat)} {w : Nat × Nat}
    (h : ∀ v ∈ pilesPos, goodWindow coverages tplLen minSupport windowSize v)
    (hw : goodWindow coverages tplLen minSupport windowSize w) :
    ∀ v ∈ pilesPos ++ [w], goodWindow coverages tplLen minSupport windowSize v := by
  intro v hv
  rcases List.mem_append.1 hv with hv | hv
  · exact h v hv
  · rw [List.mem_singleton.1 hv]; exact hw

/-- Every window the forward scan has pushed when it ends is a good window. -/
theorem forwardScan_good (coverages : List Nat) (tplLen minSupport windowSize : Nat)
    (ov : Int) (hlen : coverages.length = tplLen) (hT : tplLen < 2 ^ 32)
    (hW : 1 ≤ windowSize) :
    ∀ (fuel i beg curLen : Nat) (pilesPos ws : List (Nat × Nat)),
      beg + curLen = i → i ≤ tplLen →
      (∀ j, beg ≤ j → j < i → covered coverages minSupport j) →
      (∀ w ∈ pilesPos, goodWindow coverages tplLen minSupport windowSize w) →
      forwardScan coverages tplLen minSupport windowSize ov fuel i beg curLen pilesPos = .ok ws →
      ∀ w ∈ ws, goodWindow coverages tplLen minSupport windowSize w := by
  intro fuel
  induction fuel with
  | zero =>
    intro i beg curLen pilesPos ws _ _ _ hgood hrun
    simp only [forwardScan] at hrun
    split at hrun
    · cases hrun
    · cases hrun; exact hgood
  | succ fuel ih =>
    intro i beg curLen pilesPos ws hsum hi hcov hgood hrun
    simp only [forwardScan] at hrun
    split at hrun
    · rename_i hlt
      have hpush : curLen ≥ windowSize →
          ∀ v ∈ pilesPos ++ [(beg, sub32 (add32 beg curLen) 1)],
            goodWindow coverages tplLen minSupport windowSize v := by
        intro hge
        apply goodWindow_append hgood
        have h1 : add32 beg curLen = i := by rw [add32_of_lt (by omega)]; exact hsum
        have h2 : sub32 i 1 = i - 1 := sub32_of_le (by omega) (by omega)
        rw [h1, h2]
        refine ⟨by simp only; omega, by simp only; omega, by simp only; omega, ?_⟩
        intro j hj1 hj2
        exact hcov j hj1 (by simp only at hj2; omega)
      split at hrun
      · rename_i hge
        split at hrun
        · cases hrun
        · rename_i c hc
          have hi1 := (List.getElem?_eq_some.1 hc).1
          split at hrun
          · exact ih _ _ _ _ ws (by omega) (by omega) (fun j h1 h2 => by omega)
              (hpush hge) hrun
          · rename_i hcm
            refine ih _ _ _ _ ws (by omega) (by omega) ?_ (hpush hge) hrun
            intro j h1 h2
            have : j = _ := Nat.le_antisymm (Nat.lt_succ_iff.1 h2) h1
            subst this
            exact ⟨c, hc, by omega⟩
      · split at hrun
        · cases hrun
        · rename_i c hc
          split at hrun
          · exact ih _ _ _ _ ws (by omega) (by omega) (fun j h1 h2 => by omega) hgood hrun
          · rename_i hcm
            refine ih _ _ _ _ ws (by omega) (by omega) ?_ hgood hrun
            intro j h1 h2
            by_cases hj : j = i
            · subst hj; exact ⟨c, hc, by omega⟩
            · exact hcov j h1 (by omega)
    · cases hrun; exact hgood

/-- With `0 ≤ overlap < windowSize` the forward scan ends within
`windowSize * (tplLen - beg) - curLen` iterations. -/
theorem forwardScan_terminates (coverages : List Nat) (tplLen minSupport windowSize : Nat)
    (ov : Int) (hlen : coverages.length = tplLen) (hT : tplLen < 2 ^ 32)
    (hov0 : 0 ≤ ov) (hov : ov < windowSize) :
    ∀ (fuel i beg curLen : Nat) (pilesPos : List (Nat × Nat)),
      beg + curLen = i → i ≤ tplLen → curLen ≤ windowSize →
      windowSize * (tplLen - beg) ≤ fuel + curLen →
      ∃ ws, forwardScan coverages tplLen minSupport windowSize ov fuel i beg curLen pilesPos
        = .ok ws := by
  intro fuel
  induction fuel with
  | zero =>
    intro i beg curLen pilesPos hsum hi hcur hfuel
    simp only [forwardScan]
    by_cases hlt : i < tplLen
    · exfalso
      have h1 : windowSize * (tplLen - beg) = windowSize * (tplLen - i - 1)
          + windowSize * (curLen + 1) := by
        rw [← Nat.mul_add]; congr 1; omega
      have h2 : windowSize * (curLen + 1) = windowSize * curLen + windowSize := by ring
      have h3 : curLen ≤ windowSize * curLen := Nat.le_mul_of_pos_left _ (by omega)
      omega
    · exact ⟨pilesPos, by simp [hlt]⟩
  | succ fuel ih =>
    intro i beg curLen pilesPos hsum hi hcur hfuel
    simp only [forwardScan]
    by_cases hlt : i < tplLen
    · simp only [hlt, if_true]
      by_cases hge : curLen ≥ windowSize
      · simp only [hge, if_true]
        have hi1 : (if ov ≠ 0 then ofInt32 ((i : Int) - ov) else i) = i - ov.toNat := by
          split
          · exact ofInt32_sub_of_le hov0 (by omega) (by omega)
          · omega
        rw [hi1]
        have hin : i - ov.toNat < coverages.length := by omega
        rw [List.getElem?_eq_getElem hin]
        simp only
        have hd : windowSize * (tplLen - beg) = windowSize * (tplLen - (i - ov.toNat) - 1)
            + windowSize * (windowSize - ov.toNat + 1) := by
          rw [← Nat.mul_add]; congr 1; omega
        have hd2 : windowSize * (windowSize - ov.toNat + 1)
            = windowSize * (windowSize - ov.toNat) + windowSize := by ring
        have hd3 : windowSize ≤ windowSize * (windowSize - ov.toNat) :=
          Nat.le_mul_of_pos_right _ (by omega)
        have hd4 : windowSize * (tplLen - (i - ov.toNat)) =
            windowSize * (tplLen - (i - ov.toNat) - 1) + windowSize := by
          rw [← Nat.mul_succ]; congr 1; omega
        split
        · exact ih _ _ _ _ (by omega) (by omega) (by omega) (by
            have : tplLen - (i - ov.toNat + 1) = tplLen - (i - ov.toNat) - 1 := by omega
            rw [this]; omega)
        · exact ih _ _ _ _ (by omega) (by omega) (by omega) (by omega)
      · simp only [hge, if_false]
        have hin : i < coverages.length := by omega
        rw [List.getElem?_eq_getElem hin]
        simp only
        split
        · refine ih _ _ _ _ (by omega) (by omega) (by omega) ?_
          have h1 : windowSize * (tplLen - beg) = windowSize * (tplLen - (i + 1))
              + windowSize * (curLen + 1) := by
            rw [← Nat.mul_add]; congr 1; omega
          have h2 : windowSize * (curLen + 1) = windowSize * curLen + windowSize := by ring
          have h3 : curLen ≤ windowSize * curLen := Nat.le_mul_of_pos_left _ (by omega)
          omega
        · exact ih _ _ _ _ (by omega) (by omega) (by omega) (by omega)
    · exact ⟨pilesPos, by simp [hlt]⟩

/-- More iterations allowed do not change a result of the forward scan. -/
theorem forwardScan_mono (coverages : List Nat) (tplLen minSupport windowSize : Nat) (ov : Int) :
    ∀ (fuel fuel1 i beg curLen : Nat) (pilesPos ws : List (Nat × Nat)), fuel ≤ fuel1 →
      forwardScan coverages tplLen minSupport windowSize ov fuel i beg curLen pilesPos = .ok ws →
      forwardScan coverages tplLen minSupport windowSize ov fuel1 i beg curLen pilesPos
        = .ok ws := by
  intro fuel
  induction fuel with
  | zero =>
    intro fuel1 i beg curLen pilesPos ws _ hrun
    simp only [forwardScan] at hrun
    split at hrun
    · cases hrun
    · rename_i hlt
      cases fuel1 <;> simp [forwardScan, hlt, hrun]
  | succ fuel ih =>
    intro fuel1 i beg curLen pilesPos ws hle hrun
    obtain ⟨f1, rfl⟩ : ∃ f1, fuel1 = f1 + 1 := ⟨fuel1 - 1, by omega⟩
    have hle1 : fuel ≤ f1 := by omega
    simp only [forwardScan] at hrun ⊢
    split at hrun
    · rename_i hlt
      simp only [hlt, if_true]
      split at hrun
      · rename_i hge
        simp only [hge, if_true]
        split at hrun
        · cases hrun
        · split at hrun
          · rename_i hcm
            simp only [hcm, if_true]
            exact ih _ _ _ _ _ ws hle1 hrun
          · rename_i hcm
            simp only [hcm, if_false]
            exact ih _ _ _ _ _ ws hle1 hrun
      · rename_i hge
        simp only [hge, if_false]
        split at hrun
        · cases hrun
        · split at hrun
          · rename_i hcm
            simp only [hcm, if_true]
            exact ih _ _ _ _ _ ws hle1 hrun
          · rename_i hcm
            simp only [hcm, if_false]
            exact ih _ _ _ _ _ ws hle1 hrun
    · rename_i hlt
      simp only [hlt, if_false]
      exact hrun

/-- Every window the backward scan adds is a good window. -/
theorem backwardScan_good (coverages : List Nat) (tplLen minSupport windowSize : Nat)
    (hT : tplLen < 2 ^ 32) (hW : 1 ≤ windowSize) :
    ∀ (i end_ curLen : Nat) (pilesPos ws : List (Nat × Nat)),
      i + curLen = end_ → end_ < tplLen →
      (∀ j, i < j → j ≤ end_ → covered coverages minSupport j) →
      (∀ w ∈ pilesPos, goodWindow coverages tplLen minSupport windowSize w) →
      backwardScan coverages minSupport windowSize i end_ curLen pilesPos = .ok ws →
      ∀ w ∈ ws, goodWindow coverages tplLen minSupport windowSize w := by
  intro i
  induction i with
  | zero =>
    intro end_ curLen pilesPos ws _ _ _ hgood hrun
    simp only [backwardScan] at hrun
    cases hrun; exact hgood
  | succ i ih =>
    intro end_ curLen pilesPos ws hsum hend hcov hgood hrun
    simp only [backwardScan] at hrun
    split at hrun
    · rename_i hge
      split at hrun
      · cases hrun
      · cases hrun
        apply goodWindow_append hgood
        have h1 : sub32 end_ curLen = end_ - curLen := sub32_of_le (by omega) (by omega)
        have h2 : add32 (end_ - curLen) 1 = end_ - curLen + 1 := add32_of_lt (by omega)
        rw [h1, h2]
        refine ⟨by simp only; omega, by simp only; omega, by simp only; omega, ?_⟩
        intro j hj1 hj2
        exact hcov j (by simp only at hj1; omega) hj2
    · split at hrun
      · cases hrun
      · rename_i c hc
        split at hrun
        · exact ih _ _ _ ws (by omega) (by omega) (fun j h1 h2 => by omega) hgood hrun
        · rename_i hcm
          refine ih _ _ _ ws (by omega) (by omega) ?_ hgood hrun
          intro j h1 h2
          by_cases hj : j = i + 1
          · subst hj; exact ⟨c, hc, by omega⟩
          · exact hcov j (by omega) h2

/-- The backward scan ends with a result when it starts inside the array. -/
theorem backwardScan_terminates (coverages : List Nat) (minSupport windowSize : Nat) :
    ∀ (i end_ curLen : Nat) (pilesPos : List (Nat × Nat)), i < coverages.length →
      ∃ ws, backwardScan coverages minSupport windowSize i end_ curLen pilesPos = .ok ws := by
  intro i
  induction i with
  | zero =>
    intro end_ curLen pilesPos _
    exact ⟨pilesPos, rfl⟩
  | succ i ih =>
    intro end_ curLen pilesPos hi
    simp only [backwardScan]
    rw [List.getElem?_eq_getElem hi]
    split
    · exact ⟨_, rfl⟩
    · simp only
      split
      · exact ih _ _ _ (by omega)
      · exact ih _ _ _ (by omega)

theorem getAlignmentPilesPositions_mono (fuel fuel1 tplLen : Nat) (alignments : List Alignment)
    (minSupport windowSize : Nat) (ov : Int) (ws : List (Nat × Nat)) (hle : fuel ≤ fuel1)
    (hrun : getAlignmentPilesPositions fuel tplLen alignments minSupport windowSize ov = .ok ws) :
    getAlignmentPilesPositions fuel1 tplLen alignments minSupport windowSize ov = .ok ws := by
  unfold getAlignmentPilesPositions at hrun ⊢
  cases hc : coverageArray tplLen alignments with
  | ok coverages =>
    rw [hc] at hrun
    simp only at hrun ⊢
    cases hf : forwardScan coverages tplLen minSupport windowSize ov fuel 0 0 0 [] with
    | ok pilesPos =>
      rw [hf] at hrun
      rw [forwardScan_mono _ _ _ _ _ fuel fuel1 _ _ _ _ pilesPos hle hf]
      exact hrun
    | outOfRange => rw [hf] at hrun; cases hrun
    | outOfBounds => rw [hf] at hrun; cases hrun
    | outOfFuel => rw [hf] at hrun; cases hrun
  | outOfRange => rw [hc] at hrun; cases hrun
  | outOfBounds => rw [hc] at hrun; cases hrun
  | outOfFuel => rw [hc] at hrun; cases hrun

theorem getAlignmentPiles_mono (revComp : List Char → List Char) (fuel fuel1 : Nat)
    (alignments : List Alignment) (minSupport windowSize windowOverlap : Nat)
    (sequences : Sequences) (merSize : Nat)
    (r : List (Nat × Nat) × List (List (List Char))) (hle : fuel ≤ fuel1)
    (hrun : getAlignmentPiles revComp fuel alignments minSupport windowSize windowOverlap
      sequences merSize = .ok r) :
    getAlignmentPiles revComp fuel1 alignments minSupport windowSize windowOverlap
      sequences merSize = .ok r := by
  unfold getAlignmentPiles at hrun ⊢
  cases alignments with
  | nil => cases hrun
  | cons al0 rest =>
    simp only at hrun ⊢
    cases hp : getAlignmentPilesPositions fuel al0.qLength (al0 :: rest) minSupport windowSize
        (toInt32 windowOverlap) with
    | ok pilesPos =>
      rw [hp] at hrun
      rw [getAlignmentPilesPositions_mono fuel fuel1 _ _ _ _ _ pilesPos hle hp]
      exact hrun
    | outOfRange => rw [hp] at hrun; cases hrun
    | outOfBounds => rw [hp] at hrun; cases hrun
    | outOfFuel => rw [hp] at hrun; cases hrun

/-! ## Claims on the window positions and the end-to-end scenario -/

/-- C1 (as amended): in the end-to-end scenario (template `AAAACGTGGGG`, one
forward-strand read with the same sequence aligned over the whole template,
`minSupport = 2`, `windowSize = 4`, `windowOverlap = 0`, any `merSize ≤ 11`)
`getAlignmentPiles` returns the three windows (0,3), (4,7), (7,10) and three
piles; each pile holds the template's slice of its window (`AAAA`, `CGTG`,
`GGGG`), followed by the same slice of the read when `merSize ≤ 4`. -/
theorem getAlignmentPiles_scenario (revComp : List Char → List Char) (merSize fuel : Nat)
    (hmer : merSize ≤ 11) (hfuel : 11 ≤ fuel) :
    getAlignmentPiles revComp fuel [scenarioAlignment] 2 4 0 scenarioSequences merSize =
      .ok ([(0, 3), (4, 7), (7, 10)],
        if merSize ≤ 4 then
          [[['A', 'A', 'A', 'A'], ['A', 'A', 'A', 'A']],
           [['C', 'G', 'T', 'G'], ['C', 'G', 'T', 'G']],
           [['G', 'G', 'G', 'G'], ['G', 'G', 'G', 'G']]]
        else
          [[['A', 'A', 'A', 'A']], [['C', 'G', 'T', 'G']], [['G', 'G', 'G', 'G']]]) := by
  apply getAlignmentPiles_mono revComp 11 fuel _ _ _ _ _ _ _ hfuel
  interval_cases merSize <;> rfl

/-- Witness of `getAlignmentPiles_scenario` at `merSize = 4` and 44 iterations. -/
theorem getAlignmentPiles_scenario_witness :
    (4 ≤ 11 ∧ 11 ≤ 44) ∧
    getAlignmentPiles id 44 [scenarioAlignment] 2 4 0 scenarioSequences 4 =
      .ok ([(0, 3), (4, 7), (7, 10)],
        if 4 ≤ 4 then
          [[['A', 'A', 'A', 'A'], ['A', 'A', 'A', 'A']],
           [['C', 'G', 'T', 'G'], ['C', 'G', 'T', 'G']],
           [['G', 'G', 'G', 'G'], ['G', 'G', 'G', 'G']]]
        else
          [[['A', 'A', 'A', 'A']], [['C', 'G', 'T', 'G']], [['G', 'G', 'G', 'G']]]) :=
  ⟨by decide, getAlignmentPiles_scenario id 4 44 (by decide) (by decide)⟩

/-- C1 (counterexample): in the end-to-end scenario with `merSize = 4` the
result is three windows with three piles, not the single window (0,10) with
the pile of the two whole sequences. -/
theorem getAlignmentPiles_scenario_not_one_window :
    getAlignmentPiles id 44 [scenarioAlignment] 2 4 0 scenarioSequences 4 =
      .ok ([(0, 3), (4, 7), (7, 10)],
          [[['A', 'A', 'A', 'A'], ['A', 'A', 'A', 'A']],
           [['C', 'G', 'T', 'G'], ['C', 'G', 'T', 'G']],
           [['G', 'G', 'G', 'G'], ['G', 'G', 'G', 'G']]]) ∧
    getAlignmentPiles id 44 [scenarioAlignment] 2 4 0 scenarioSequences 4 ≠
      .ok ([(0, 10)],
          [[['A', 'A', 'A', 'A', 'C', 'G', 'T', 'G', 'G', 'G', 'G'],
            ['A', 'A', 'A', 'A', 'C', 'G', 'T', 'G', 'G', 'G', 'G']]]) := by
  decide

/-- C2: for a template of length `tplLen ≥ 1`, alignments with
`qStart ≤ qEnd < tplLen`, `windowSize ≥ 1` and `0 ≤ overlap < windowSize`,
`getAlignmentPilesPositions` returns (within `windowSize * tplLen` iterations
of its forward scan) a list of windows, and every window `(b, e)` of it has
`b ≤ e < tplLen`, at least `windowSize` positions, and coverage at least
`minSupport` at every position of `[b, e]`. -/
theorem getAlignmentPilesPositions_windows (tplLen : Nat) (alignments : List Alignment)
    (minSupport windowSize : Nat) (overlap : Int) (fuel : Nat)
    (hT1 : 1 ≤ tplLen) (hT : tplLen < 2 ^ 32)
    (hal : ∀ al ∈ alignments, al.qStart ≤ al.qEnd ∧ al.qEnd < tplLen)
    (hW : 1 ≤ windowSize) (hov0 : 0 ≤ overlap) (hov : overlap < windowSize)
    (hfuel : windowSize * tplLen ≤ fuel) :
    ∃ ws, getAlignmentPilesPositions fuel tplLen alignments minSupport windowSize overlap
        = .ok ws ∧
      ∀ w ∈ ws, w.1 ≤ w.2 ∧ w.2 < tplLen ∧ windowSize ≤ w.2 - w.1 + 1 ∧
        ∀ i, w.1 ≤ i → i ≤ w.2 → minSupport ≤ coverage alignments i := by
  obtain ⟨cov, hcov, hlen, hget⟩ := coverageArray_spec tplLen alignments hal
  obtain ⟨ws1, hf⟩ := forwardScan_terminates cov tplLen minSupport windowSize overlap hlen hT
    hov0 hov fuel 0 0 0 [] rfl (by omega) (by omega) (by simpa using hfuel)
  have hg1 := forwardScan_good cov tplLen minSupport windowSize overlap hlen hT hW
    fuel 0 0 0 [] ws1 rfl (by omega) (fun j _ h => by omega) (by simp) hf
  have hs : sub32 tplLen 1 = tplLen - 1 := sub32_of_le hT1 hT
  obtain ⟨ws, hb⟩ := backwardScan_terminates cov minSupport windowSize (tplLen - 1)
    (tplLen - 1) 0 ws1 (by omega)
  have hg := backwardScan_good cov tplLen minSupport windowSize hT hW (tplLen - 1)
    (tplLen - 1) 0 ws1 ws rfl (by omega) (fun j h1 h2 => by omega) hg1 hb
  refine ⟨ws, ?_, ?_⟩
  · simp only [getAlignmentPilesPositions, hcov, hf, hs]
    exact hb
  · intro w hw
    obtain ⟨h1, h2, h3, h4⟩ := hg w hw
    refine ⟨h1, h2, h3, ?_⟩
    intro i hi1 hi2
    obtain ⟨c, hc, hmc⟩ := h4 i hi1 hi2
    rw [hget i (by omega)] at hc
    have : coverage alignments i % 2 ^ 32 = c := by simpa using hc
    have hmod : coverage alignments i % 2 ^ 32 ≤ coverage alignments i := Nat.mod_le _ _
    omega

/-- Witness of `getAlignmentPilesPositions_windows` in the end-to-end scenario. -/
theorem getAlignmentPilesPositions_windows_witness :
    (1 ≤ 11 ∧ 11 < 2 ^ 32 ∧
      (∀ al ∈ [scenarioAlignment], al.qStart ≤ al.qEnd ∧ al.qEnd < 11) ∧
      1 ≤ 4 ∧ (0 : Int) ≤ 0 ∧ (0 : Int) < (4 : Nat) ∧ 4 * 11 ≤ 44) ∧
    ∃ ws, getAlignmentPilesPositions 44 11 [scenarioAlignment] 2 4 0 = .ok ws ∧
      ∀ w ∈ ws, w.1 ≤ w.2 ∧ w.2 < 11 ∧ 4 ≤ w.2 - w.1 + 1 ∧
        ∀ i, w.1 ≤ i → i ≤ w.2 → 2 ≤ coverage [scenarioAlignment] i :=
  ⟨by decide,
   getAlignmentPilesPositions_windows 11 [scenarioAlignment] 2 4 0 44 (by decide) (by decide)
    (by decide) (by decide) (by decide) (by decide) (by decide)⟩

/-- C10 (the code at the failing input): a template of four bases, all with
coverage 2, `minSupport = 2` and `windowSize = 4`: the last `windowSize` bases
are covered, and `getAlignmentPilesPositions` returns no window at all. -/
theorem getAlignmentPilesPositions_no_trailing_window :
    coverageArray 4 [{ scenarioAlignment with qLength := 4, qEnd := 3 }] = .ok [2, 2, 2, 2] ∧
    getAlignmentPilesPositions 16 4 [{ scenarioAlignment with qLength := 4, qEnd := 3 }] 2 4 0
      = .ok [] := by
  decide

/-! ## Neighbours -/

theorem bind_ok {α β : Type} (a : α) (f : α → Run β) : (Run.ok a >>= f) = f a := rfl

theorem bind_eq_ok {α β : Type} {x : Run α} {f : α → Run β} {b : β}
    (h : (x >>= f) = .ok b) : ∃ a, x = .ok a ∧ f a = .ok b := by
  cases x with
  | ok a => exact ⟨a, rfl, h⟩
  | outOfRange => cases h
  | outOfBounds => cases h
  | outOfFuel => cases h

theorem substrFrom_of_le {s : List Char} {pos : Nat} (h : pos ≤ s.length) :
    substrFrom s pos = .ok (s.drop pos) := by
  simp [substrFrom, h]

theorem substr_zero (s : List Char) (len : Nat) : substr s 0 len = .ok (s.take len) := by
  simp [substr]

theorem substrFrom_lastK {s : List Char} {k : Nat} (h : k ≤ s.length) :
    substrFrom s (sizeSub s.length k) = .ok (lastK s k) := by
  rw [sizeSub_of_le h, substrFrom_of_le (by omega)]
  rfl

theorem length_lastK {s : List Char} {k : Nat} (h : k ≤ s.length) : (lastK s k).length = k := by
  simp [lastK]; omega

theorem lastK_self {s : List Char} {k : Nat} (h : s.length = k) : lastK s k = s := by
  simp [lastK, h]

theorem mem_sortByCount {merCounts : MerCounts} {l : List (List Char)} {n : List Char} :
    n ∈ sortByCount merCounts l ↔ n ∈ l := by
  unfold sortByCount
  exact List.mem_insertionSort _

/-- A right extension of a non-empty k-mer returns a list. -/
theorem getNeighbours_right_ok (kMer : List Char) (merSize : Nat) (merCounts : MerCounts)
    (solidThresh : Nat) (h : 1 ≤ kMer.length) :
    ∃ nb, getNeighbours kMer merSize 0 merCounts solidThresh = .ok nb := by
  simp [getNeighbours, substrFrom, h]

/-- Each neighbour of a right extension is the k-mer without its first base
followed by one character of the alphabet, and is solid. -/
theorem getNeighbours_right_mem {kMer : List Char} {merSize : Nat} {merCounts : MerCounts}
    {solidThresh : Nat} {nb : List (List Char)}
    (h : getNeighbours kMer merSize 0 merCounts solidThresh = .ok nb) :
    1 ≤ kMer.length ∧ ∀ n ∈ nb, ∃ c ∈ alphabet, n = kMer.drop 1 ++ [c] ∧
      solidThresh ≤ merCounts n := by
  simp only [getNeighbours, if_true, substrFrom] at h
  split at h
  · rename_i f hf
    split at hf
    · rename_i hlen
      cases hf
      cases h
      refine ⟨hlen, ?_⟩
      intro n hn
      rw [mem_sortByCount, List.mem_filter, List.mem_map] at hn
      obtain ⟨⟨c, hc, rfl⟩, hT⟩ := hn
      exact ⟨c, hc, rfl, by simpa using hT⟩
    · cases hf
  · cases h
  · cases h
  · cases h

/-- A left extension always returns a list. -/
theorem getNeighbours_left_ok (kMer : List Char) (merSize : Nat) (left : Int)
    (merCounts : MerCounts) (solidThresh : Nat) (hl : left ≠ 0) :
    ∃ nb, getNeighbours kMer merSize left merCounts solidThresh = .ok nb := by
  simp [getNeighbours, substr, hl]

/-- Each neighbour of a left extension is one character of the alphabet
followed by the first `merSize - 1` bases of the k-mer, and is solid. -/
theorem getNeighbours_left_mem {kMer : List Char} {merSize : Nat} {left : Int}
    {merCounts : MerCounts} {solidThresh : Nat} {nb : List (List Char)} (hl : left ≠ 0)
    (h : getNeighbours kMer merSize left merCounts solidThresh = .ok nb) :
    ∀ n ∈ nb, ∃ c ∈ alphabet, n = c :: kMer.take (sub32 merSize 1) ∧
      solidThresh ≤ merCounts n := by
  simp only [getNeighbours, hl, if_false, substr_zero] at h
  cases h
  intro n hn
  rw [mem_sortByCount, List.mem_filter, List.mem_map] at hn
  obtain ⟨⟨c, hc, rfl⟩, hT⟩ := hn
  exact ⟨c, hc, rfl, by simpa using hT⟩

theorem distStep_one {dist k : Nat} (hk1 : 1 ≤ k) (hk : k < 2 ^ 32) (hd : dist + 1 < 2 ^ 32) :
    distStep dist k k = dist + 1 := by
  unfold distStep
  rw [sub32_of_le hk1 hk, sizeSub_of_le (by omega)]
  omega

/-- C3 (the code at the failing input): the right extensions of `ACGT` with
an empty count table and threshold 0 are five strings, the four extensions
by a base and `CGT` followed by the zero character. -/
theorem getNeighbours_returns_fifth_candidate :
    getNeighbours ['A', 'C', 'G', 'T'] 4 0 (fun _ => 0) 0 =
      .ok [['C', 'G', 'T', 'A'], ['C', 'G', 'T', 'C'], ['C', 'G', 'T', 'G'],
           ['C', 'G', 'T', 'T'], ['C', 'G', 'T', Char.ofNat 0]] := by
  decide

/-! ## Linear extension -/

theorem extendRightLoop_spec (merCounts : MerCounts) (curK extLen solidThresh : Nat)
    (hk1 : 1 ≤ curK) (hk : curK < 2 ^ 32) (hE : extLen < 2 ^ 32) :
    ∀ (fuel : Nat) (nb : List (List Char)) (dist : Nat) (LR : List Char),
      curK ≤ LR.length →
      getNeighbours (lastK LR curK) curK 0 merCounts solidThresh = .ok nb →
      dist ≤ extLen → extLen ≤ fuel + dist →
      ∃ d LR1, extendRightLoop merCounts curK extLen solidThresh fuel nb dist LR = .ok (d, LR1) ∧
        dist ≤ d ∧ d ≤ extLen ∧ LR1.take LR.length = LR ∧
        LR1.length = LR.length + (d - dist) ∧
        (∀ j, j < d - dist → ∃ n,
          getNeighbours (lastK (LR1.take (LR.length + j)) curK) curK 0 merCounts solidThresh
            = .ok [n] ∧ LR1[LR.length + j]? = n.getLast?) ∧
        (d < extLen → ∃ nb1,
          getNeighbours (lastK LR1 curK) curK 0 merCounts solidThresh = .ok nb1 ∧
          (nb1.length = 0 ∨ 2 ≤ nb1.length)) := by
  intro fuel
  induction fuel with
  | zero =>
    intro nb dist LR _ _ hd hf
    refine ⟨dist, LR, ?_, le_refl _, hd, by simp, by simp, ?_, ?_⟩
    · have : ¬ dist < extLen := by omega
      simp [extendRightLoop, this]
    · intro j hj; omega
    · intro h; omega
  | succ fuel ih =>
    intro nb dist LR hLR hnb hd hf
    have hstop : ∀ (h : extendRightLoop merCounts curK extLen solidThresh (fuel + 1) nb dist LR
          = .ok (dist, LR)) (h2 : dist < extLen → nb.length = 0 ∨ 2 ≤ nb.length),
        ∃ d LR1, extendRightLoop merCounts curK extLen solidThresh (fuel + 1) nb dist LR
            = .ok (d, LR1) ∧
          dist ≤ d ∧ d ≤ extLen ∧ LR1.take LR.length = LR ∧
          LR1.length = LR.length + (d - dist) ∧
          (∀ j, j < d - dist → ∃ n,
            getNeighbours (lastK (LR1.take (LR.length + j)) curK) curK 0 merCounts solidThresh
              = .ok [n] ∧ LR1[LR.length + j]? = n.getLast?) ∧
          (d < extLen → ∃ nb1,
            getNeighbours (lastK LR1 curK) curK 0 merCounts solidThresh = .ok nb1 ∧
            (nb1.length = 0 ∨ 2 ≤ nb1.length)) := by
      intro h h2
      refine ⟨dist, LR, h, le_refl _, hd, by simp, by simp, ?_, ?_⟩
      · intro j hj; omega
      · intro hlt; exact ⟨nb, hnb, h2 hlt⟩
    match nb, hnb with
    | [], hnb => exact hstop (by simp [extendRightLoop]) (by simp)
    | _ :: _ :: _, hnb => exact hstop (by simp [extendRightLoop]) (by simp)
    | [n], hnb =>
      by_cases hlt : dist < extLen
      · obtain ⟨_, hmem⟩ := getNeighbours_right_mem hnb
        obtain ⟨c, _, hn, _⟩ := hmem n (List.mem_singleton_self n)
        have hm : ((lastK LR curK).drop 1).length = curK - 1 := by
          rw [List.length_drop, length_lastK hLR]
        have hnlen : n.length = curK := by
          rw [hn, List.length_append, hm, List.length_singleton]; omega
        have htail : substrFrom n (sub32 curK 1) = .ok [c] := by
          rw [sub32_of_le hk1 hk, substrFrom_of_le (by omega), hn, ← hm, List.drop_left]
        have hLR1 : curK ≤ (LR ++ [c]).length := by simp; omega
        obtain ⟨nb1, hnb1⟩ := getNeighbours_right_ok (lastK (LR ++ [c]) curK) curK merCounts
          solidThresh (by rw [length_lastK hLR1]; exact hk1)
        obtain ⟨d, LR1, hrun, h1, h2, h3, h4, h5, h6⟩ :=
          ih nb1 (dist + 1) (LR ++ [c]) hLR1 hnb1 (by omega) (by omega)
        have hlen1 : (LR ++ [c]).length = LR.length + 1 := by simp
        rw [hlen1] at h3 h4 h5
        have htake : LR1.take LR.length = LR := by
          have := congrArg (List.take LR.length) h3
          rw [List.take_take] at this
          simpa using this
        have hget : LR1[LR.length]? = some c := by
          have : (LR1.take (LR.length + 1))[LR.length]? = (LR ++ [c])[LR.length]? := by rw [h3]
          rw [List.getElem?_take] at this
          simpa using this
        have hL : LR1.length = LR.length + (d - dist) := by
          rw [h4]; clear h5 h6 hget htake h3 hrun hnb1 htail hmem hnb hn; omega
        have hdd : dist ≤ d := by omega
        refine ⟨d, LR1, ?_, hdd, h2, htake, hL, ?_, h6⟩
        · simp only [extendRightLoop, hlt, if_true, htail, bind_ok, substrFrom_lastK hLR1, hnb1,
            hnlen, distStep_one hk1 hk (show dist + 1 < 2 ^ 32 by omega)]
          exact hrun
        · intro j hj
          cases j with
          | zero =>
            refine ⟨n, ?_, ?_⟩
            · rw [Nat.add_zero, htake]; exact hnb
            · rw [Nat.add_zero, hget, hn]; simp
          | succ j =>
            have := h5 j (by omega)
            rw [show LR.length + 1 + j = LR.length + (j + 1) by omega] at this
            exact this
      · exact hstop (by simp [extendRightLoop, hlt]) (fun h => absurd h hlt)

theorem extendLeftLoop_spec (merCounts : MerCounts) (curK extLen solidThresh : Nat)
    (hk1 : 1 ≤ curK) (hk : curK < 2 ^ 32) (hE : extLen < 2 ^ 32) :
    ∀ (fuel : Nat) (nb : List (List Char)) (dist : Nat) (LR : List Char),
      curK ≤ LR.length →
      getNeighbours (LR.take curK) curK 1 merCounts solidThresh = .ok nb →
      dist ≤ extLen → extLen ≤ fuel + dist →
      ∃ d LR1, extendLeftLoop merCounts curK extLen solidThresh fuel nb dist LR = .ok (d, LR1) ∧
        dist ≤ d ∧ d ≤ extLen ∧ LR1.drop (d - dist) = LR ∧
        LR1.length = LR.length + (d - dist) ∧
        (∀ j, j < d - dist → ∃ n,
          getNeighbours ((LR1.drop (d - dist - j)).take curK) curK 1 merCounts solidThresh
            = .ok [n] ∧ LR1[d - dist - j - 1]? = n.head?) ∧
        (d < extLen → ∃ nb1,
          getNeighbours (LR1.take curK) curK 1 merCounts solidThresh = .ok nb1 ∧
          (nb1.length = 0 ∨ 2 ≤ nb1.length)) := by
  intro fuel
  induction fuel with
  | zero =>
    intro nb dist LR _ _ hd hf
    refine ⟨dist, LR, ?_, le_refl _, hd, by simp, by simp, ?_, ?_⟩
    · have : ¬ dist < extLen := by omega
      simp [extendLeftLoop, this]
    · intro j hj; omega
    · intro h; omega
  | succ fuel ih =>
    intro nb dist LR hLR hnb hd hf
    have hstop : ∀ (h : extendLeftLoop merCounts curK extLen solidThresh (fuel + 1) nb dist LR
          = .ok (dist, LR)) (h2 : dist < extLen → nb.length = 0 ∨ 2 ≤ nb.length),
        ∃ d LR1, extendLeftLoop merCounts curK extLen solidThresh (fuel + 1) nb dist LR
            = .ok (d, LR1) ∧
          dist ≤ d ∧ d ≤ extLen ∧ LR1.drop (d - dist) = LR ∧
          LR1.length = LR.length + (d - dist) ∧
          (∀ j, j < d - dist → ∃ n,
            getNeighbours ((LR1.drop (d - dist - j)).take curK) curK 1 merCounts solidThresh
              = .ok [n] ∧ LR1[d - dist - j - 1]? = n.head?) ∧
          (d < extLen → ∃ nb1,
            getNeighbours (LR1.take curK) curK 1 merCounts solidThresh = .ok nb1 ∧
            (nb1.length = 0 ∨ 2 ≤ nb1.length)) := by
      intro h h2
      refine ⟨dist, LR, h, le_refl _, hd, by simp, by simp, ?_, ?_⟩
      · intro j hj; omega
      · intro hlt; exact ⟨nb, hnb, h2 hlt⟩
    match nb, hnb with
    | [], hnb => exact hstop (by simp [extendLeftLoop]) (by simp)
    | _ :: _ :: _, hnb => exact hstop (by simp [extendLeftLoop]) (by simp)
    | [n], hnb =>
      by_cases hlt : dist < extLen
      · obtain ⟨c, _, hn, _⟩ :=
          getNeighbours_left_mem (by decide) hnb n (List.mem_singleton_self n)
        have hnlen : n.length = curK := by
          rw [hn, sub32_of_le hk1 hk]; simp; omega
        have hhead : List.take (sizeSub curK (sub32 curK 1)) n = [c] := by
          rw [sub32_of_le hk1 hk, sizeSub_of_le (by omega),
            show curK - (curK - 1) = 1 by omega, hn]
          rfl
        have hLR1 : curK ≤ ([c] ++ LR).length := by simp; omega
        obtain ⟨nb1, hnb1⟩ := getNeighbours_left_ok (([c] ++ LR).take curK) curK 1 merCounts
          solidThresh (by decide)
        obtain ⟨d, LR1, hrun, h1, h2, h3, h4, h5, h6⟩ :=
          ih nb1 (dist + 1) ([c] ++ LR) hLR1 hnb1 (by omega) (by omega)
        have hlen1 : ([c] ++ LR).length = LR.length + 1 := by simp
        rw [hlen1] at h4
        have hL : LR1.length = LR.length + (d - dist) := by
          rw [h4]; clear h5 h6 h3 hrun hnb1 hhead hnb hn; omega
        have hdd : dist ≤ d := by omega
        have hsplit : d - dist = (d - (dist + 1)) + 1 := by omega
        have hdrop : LR1.drop (d - dist) = LR := by
          rw [hsplit, ← List.drop_drop, h3]
          rfl
        have hget : LR1[d - dist - 1]? = some c := by
          have : (LR1.drop (d - (dist + 1)))[0]? = ([c] ++ LR)[0]? := by rw [h3]
          rw [List.getElem?_drop] at this
          rw [show d - dist - 1 = d - (dist + 1) + 0 by omega]
          simpa using this
        refine ⟨d, LR1, ?_, hdd, h2, hdrop, hL, ?_, h6⟩
        · simp only [extendLeftLoop, hlt, if_true, substr_zero, hnlen, hhead, bind_ok, hnb1,
            distStep_one hk1 hk (show dist + 1 < 2 ^ 32 by omega)]
          exact hrun
        · intro j hj
          cases j with
          | zero =>
            refine ⟨n, ?_, ?_⟩
            · rw [Nat.sub_zero, hdrop]; exact hnb
            · rw [Nat.sub_zero, hget, hn]; rfl
          | succ j =>
            have := h5 j (by omega)
            rw [show d - (dist + 1) - j = d - dist - (j + 1) by omega] at this
            exact this
      · exact hstop (by simp [extendLeftLoop, hlt]) (fun h => absurd h hlt)

/-- C7: for an order `k ≥ 1`, a cap `extLen` and a sequence `S` of at least
`k` bases, `extendRight` and `extendLeft` return (within `extLen` iterations)
a distance `d ≤ extLen` and a sequence that is `S` with `d` bases appended
(prepended); each of the `d` steps started from a sequence whose terminal
k-mer had exactly one neighbour in `getNeighbours`, whose new end base was
added; and if `d < extLen` the terminal k-mer of the result has no neighbour
or at least two. -/
theorem extend_stops_at_branch_or_cap (merCounts : MerCounts)
    (curK extLen solidThresh : Nat) (S : List Char) (fuel : Nat)
    (hk1 : 1 ≤ curK) (hk : curK < 2 ^ 32) (hS : curK ≤ S.length) (hE : extLen < 2 ^ 32)
    (hfuel : extLen ≤ fuel) :
    (∃ d LR, extendRight fuel merCounts curK extLen S solidThresh = .ok (d, LR) ∧
      d ≤ extLen ∧ LR.take S.length = S ∧ LR.length = S.length + d ∧
      (∀ j, j < d → ∃ n,
        getNeighbours (lastK (LR.take (S.length + j)) curK) curK 0 merCounts solidThresh
          = .ok [n] ∧ LR[S.length + j]? = n.getLast?) ∧
      (d < extLen → ∃ nb,
        getNeighbours (lastK LR curK) curK 0 merCounts solidThresh = .ok nb ∧
        (nb.length = 0 ∨ 2 ≤ nb.length))) ∧
    (∃ d LR, extendLeft fuel merCounts curK extLen S solidThresh = .ok (d, LR) ∧
      d ≤ extLen ∧ LR.drop d = S ∧ LR.length = S.length + d ∧
      (∀ j, j < d → ∃ n,
        getNeighbours ((LR.drop (d - j)).take curK) curK 1 merCounts solidThresh
          = .ok [n] ∧ LR[d - j - 1]? = n.head?) ∧
      (d < extLen → ∃ nb,
        getNeighbours (LR.take curK) curK 1 merCounts solidThresh = .ok nb ∧
        (nb.length = 0 ∨ 2 ≤ nb.length))) := by
  constructor
  · obtain ⟨nb, hnb⟩ := getNeighbours_right_ok (lastK S curK) curK merCounts solidThresh
      (by rw [length_lastK hS]; exact hk1)
    obtain ⟨d, LR, hrun, _, h2, h3, h4, h5, h6⟩ :=
      extendRightLoop_spec merCounts curK extLen solidThresh hk1 hk hE fuel nb 0 S hS hnb
        (by omega) (by omega)
    refine ⟨d, LR, ?_, h2, h3, by simpa using h4, by simpa using h5, h6⟩
    simp only [extendRight, substrFrom_lastK hS, bind_ok, hnb]
    exact hrun
  · obtain ⟨nb, hnb⟩ := getNeighbours_left_ok (S.take curK) curK 1 merCounts solidThresh
      (by decide)
    obtain ⟨d, LR, hrun, _, h2, h3, h4, h5, h6⟩ :=
      extendLeftLoop_spec merCounts curK extLen solidThresh hk1 hk hE fuel nb 0 S hS hnb
        (by omega) (by omega)
    refine ⟨d, LR, ?_, h2, by simpa using h3, by simpa using h4, by simpa using h5, h6⟩
    simp only [extendLeft, substr_zero, bind_ok, hnb]
    exact hrun

/-- Witness of `extend_stops_at_branch_or_cap`: the chain table, order 4,
cap 10, from `ACGT`. -/
theorem extend_stops_at_branch_or_cap_witness :
    (1 ≤ 4 ∧ 4 < 2 ^ 32 ∧ 4 ≤ ['A', 'C', 'G', 'T'].length ∧ 10 < 2 ^ 32 ∧ 10 ≤ 10) ∧
    ((∃ d LR, extendRight 10 chainCounts 4 10 ['A', 'C', 'G', 'T'] 1 = .ok (d, LR) ∧
      d ≤ 10 ∧ LR.take ['A', 'C', 'G', 'T'].length = ['A', 'C', 'G', 'T'] ∧
      LR.length = ['A', 'C', 'G', 'T'].length + d ∧
      (∀ j, j < d → ∃ n,
        getNeighbours (lastK (LR.take (['A', 'C', 'G', 'T'].length + j)) 4) 4 0 chainCounts 1
          = .ok [n] ∧ LR[['A', 'C', 'G', 'T'].length + j]? = n.getLast?) ∧
      (d < 10 → ∃ nb,
        getNeighbours (lastK LR 4) 4 0 chainCounts 1 = .ok nb ∧
        (nb.length = 0 ∨ 2 ≤ nb.length))) ∧
    (∃ d LR, extendLeft 10 chainCounts 4 10 ['A', 'C', 'G', 'T'] 1 = .ok (d, LR) ∧
      d ≤ 10 ∧ LR.drop d = ['A', 'C', 'G', 'T'] ∧
      LR.length = ['A', 'C', 'G', 'T'].length + d ∧
      (∀ j, j < d → ∃ n,
        getNeighbours ((LR.drop (d - j)).take 4) 4 1 chainCounts 1
          = .ok [n] ∧ LR[d - j - 1]? = n.head?) ∧
      (d < 10 → ∃ nb,
        getNeighbours (LR.take 4) 4 1 chainCounts 1 = .ok nb ∧
        (nb.length = 0 ∨ 2 ≤ nb.length)))) :=
  ⟨by decide,
   extend_stops_at_branch_or_cap chainCounts 4 10 1 ['A', 'C', 'G', 'T'] 10 (by decide)
    (by decide) (by decide) (by decide) (by decide)⟩

/-! ## link -/

theorem lastK_append_singleton {s : List Char} {k : Nat} (c : Char) (hk1 : 1 ≤ k)
    (h : k ≤ s.length) : lastK (s ++ [c]) k = (lastK s k).drop 1 ++ [c] := by
  unfold lastK
  rw [List.length_append, List.length_singleton, List.drop_drop,
    List.drop_append_of_le_length (by omega)]
  congr 2
  omega

theorem charAt_append_singleton {m : List Char} {c : Char} {i : Nat} (h : m.length = i) :
    charAt (m ++ [c]) i = .ok c := by
  subst h
  simp [charAt]

/-- A neighbour of the last k-mer of `res` is the last k-mer of `res` with
one character appended; that character is the one `link` appends. -/
theorem neighbour_of_lastK {merCounts : MerCounts} {solidThresh k : Nat} {res : List Char}
    {nb : List (List Char)} {n : List Char} (hk : k < 2 ^ 32) (hres : k ≤ res.length)
    (hnb : getNeighbours (lastK res k) k 0 merCounts solidThresh = .ok nb) (hn : n ∈ nb) :
    1 ≤ k ∧ n.length = k ∧ ∃ c, charAt n (sub32 k 1) = .ok c ∧ lastK (res ++ [c]) k = n ∧
      solidThresh ≤ merCounts n := by
  obtain ⟨h1, hmem⟩ := getNeighbours_right_mem hnb
  rw [length_lastK hres] at h1
  obtain ⟨c, _, hc, hT⟩ := hmem n hn
  have hm : ((lastK res k).drop 1).length = k - 1 := by
    rw [List.length_drop, length_lastK hres]
  refine ⟨h1, ?_, c, ?_, ?_, hT⟩
  · rw [hc, List.length_append, hm, List.length_singleton]; omega
  · rw [hc, sub32_of_le h1 hk]
    exact charAt_append_singleton hm
  · rw [lastK_append_singleton c h1 hres, hc]

theorem linkWalk_found (merCounts : MerCounts) (tgtSeed : List Char)
    (curK LRLen solidThresh fuel : Nat) (s : WalkState) (h : s.found = true) :
    linkWalk merCounts tgtSeed curK LRLen solidThresh fuel s = .ok s := by
  cases fuel with
  | zero => simp [linkWalk, h]
  | succ fuel =>
    obtain ⟨found, nb, dist, res⟩ := s
    simp only at h
    subst h
    simp [linkWalk]

/-- What the first loop of `link` leaves behind: the path only grows, its
neighbours are those of its last k-mer, and `found` is set only when the last
k-mer of the path is the first k-mer of the target. -/
theorem linkWalk_spec (merCounts : MerCounts) (tgtSeed : List Char)
    (curK LRLen solidThresh : Nat) (hk : curK < 2 ^ 32) :
    ∀ (fuel : Nat) (s w : WalkState),
      linkWalk merCounts tgtSeed curK LRLen solidThresh fuel s = .ok w →
      curK ≤ s.resPart1.length →
      (s.found = false →
        getNeighbours (lastK s.resPart1 curK) curK 0 merCounts solidThresh = .ok s.neighbours) →
      (∃ ext, w.resPart1 = s.resPart1 ++ ext) ∧
      (w.found = false →
        getNeighbours (lastK w.resPart1 curK) curK 0 merCounts solidThresh = .ok w.neighbours) ∧
      (s.found = true → w = s) ∧
      (s.found = false → w.found = true →
        lastK w.resPart1 curK = tgtSeed.take curK ∧ curK ≤ tgtSeed.length) := by
  intro fuel
  induction fuel with
  | zero =>
    intro s w hrun _ hnb
    simp only [linkWalk] at hrun
    split at hrun
    · cases hrun
    · cases hrun
      exact ⟨⟨[], by simp⟩, hnb, fun _ => rfl, fun h1 h2 => by rw [h1] at h2; cases h2⟩
  | succ fuel ih =>
    intro s w hrun hres hnb
    have hsame : linkWalk merCounts tgtSeed curK LRLen solidThresh (fuel + 1) s = .ok s →
        (∃ ext, w.resPart1 = s.resPart1 ++ ext) ∧
        (w.found = false →
          getNeighbours (lastK w.resPart1 curK) curK 0 merCounts solidThresh
            = .ok w.neighbours) ∧
        (s.found = true → w = s) ∧
        (s.found = false → w.found = true →
          lastK w.resPart1 curK = tgtSeed.take curK ∧ curK ≤ tgtSeed.length) := by
      intro h
      rw [h] at hrun
      cases hrun
      exact ⟨⟨[], by simp⟩, hnb, fun _ => rfl, fun h1 h2 => by rw [h1] at h2; cases h2⟩
    obtain ⟨found, nb, dist, res⟩ := s
    match found, nb, hnb with
    | true, nb, _ => exact hsame (linkWalk_found _ _ _ _ _ _ _ rfl)
    | false, [], _ => exact hsame (by simp [linkWalk])
    | false, _ :: _ :: _, _ => exact hsame (by simp [linkWalk])
    | false, [curRead], hnb =>
      by_cases hd : dist ≤ LRLen
      · simp only at hres
        obtain ⟨hk1, hlen, c, hc, hlast, _⟩ :=
          neighbour_of_lastK hk hres (hnb rfl) (List.mem_singleton_self curRead)
        have hres1 : curK ≤ (res ++ [c]).length := by simp; omega
        simp only [linkWalk, hd, if_true, substr_zero, bind_ok, hc, hlen] at hrun
        split at hrun
        · rename_i heq
          rw [linkWalk_found _ _ _ _ _ _ _ rfl] at hrun
          cases hrun
          refine ⟨⟨[c], rfl⟩, fun h => by simp at h, fun h => by simp at h, fun _ _ => ?_⟩
          simp only
          rw [hlast, heq]
          refine ⟨by simp, ?_⟩
          have := congrArg List.length heq
          rw [hlen, List.length_take] at this
          omega
        · rename_i hne
          rw [substrFrom_lastK hres1] at hrun
          simp only [bind_ok] at hrun
          rw [show (lastK (res ++ [c]) curK).length = curK from length_lastK hres1,
            sizeSub_of_le (le_refl _), Nat.sub_self, substrFrom_of_le (Nat.zero_le _),
            List.drop_zero] at hrun
          simp only [bind_ok] at hrun
          obtain ⟨nb1, hnb1, hrun⟩ := bind_eq_ok hrun
          obtain ⟨⟨ext, hext⟩, h2, _, h4⟩ := ih _ w hrun hres1 (fun _ => hnb1)
          simp only at hext h4
          refine ⟨⟨[c] ++ ext, by rw [hext]; simp⟩, h2, fun h => by simp at h, fun _ hw => ?_⟩
          exact h4 trivial hw
      · exact hsame (by simp [linkWalk, hd])

/-- What the second loop of `link` leaves behind, given what a successful
recursive call guarantees (`Q curExt missingPart`). -/
theorem linkBranches_spec (callLink : Nat → Nat → List Char → List Char → Run LinkOut)
    (tgtSeed : List Char) (curK dist : Nat) (res : List Char)
    (Q : List Char → List Char → Prop)
    (hcall : ∀ cb d ext mp out, callLink cb d ext mp = .ok out → out.ret ≠ 0 →
      Q ext out.missingPart) :
    ∀ (nbrs : List (List Char)) (cb : Nat) (mp : List Char) (b : BranchState),
      (∀ n ∈ nbrs, n.length = curK ∧
        ∃ c, charAt n (sub32 curK 1) = .ok c ∧ lastK (res ++ [c]) curK = n) →
      linkBranches callLink tgtSeed curK dist res nbrs cb mp = .ok b →
      (b.returned = true → ∃ c, Q (res ++ [c]) b.missingPart) ∧
      (b.returned = false → b.found = true →
        ∃ c, b.resPart1 = res ++ [c] ∧ lastK (res ++ [c]) curK = tgtSeed.take curK) := by
  intro nbrs
  induction nbrs with
  | nil =>
    intro cb mp b _ hrun
    simp only [linkBranches] at hrun
    cases hrun
    exact ⟨fun h => by simp at h, fun _ h => by simp at h⟩
  | cons n rest ih =>
    intro cb mp b hn hrun
    obtain ⟨hlen, c, hc, hlast⟩ := hn n (List.mem_cons_self _ _)
    simp only [linkBranches, substr_zero, bind_ok, hc, hlen] at hrun
    split at hrun
    · rename_i heq
      cases hrun
      refine ⟨fun h => by simp at h, fun _ _ => ⟨c, rfl, ?_⟩⟩
      rw [hlast]; exact heq
    · obtain ⟨out, hout, hrun⟩ := bind_eq_ok hrun
      split at hrun
      · rename_i hret
        cases hrun
        exact ⟨fun _ => ⟨c, hcall _ _ _ _ _ hout hret⟩, fun h => by simp at h⟩
      · exact ih _ _ b (fun m hm => hn m (List.mem_cons_of_mem _ hm)) hrun

/-- Shape of the result of a successful call of `link`. -/
theorem link_success_shape (merCounts : MerCounts) (srcSeed tgtSeed : List Char)
    (visited : List (List Char)) (merSize LRLen maxBranches solidThresh minOrder : Nat)
    (hm : merSize < 2 ^ 32) :
    ∀ (fuel curK curBranches dist : Nat) (curExt missingPart : List Char) (out : LinkOut),
      curK < 2 ^ 32 → curK ≤ curExt.length → merSize ≤ curExt.length →
      link merCounts srcSeed tgtSeed curK visited curBranches dist curExt missingPart merSize
        LRLen maxBranches solidThresh minOrder fuel = .ok out →
      out.ret ≠ 0 →
      ∃ ext k, (k = curK ∨ k = merSize) ∧ k ≤ tgtSeed.length ∧
        lastK (curExt ++ ext) k = tgtSeed.take k ∧
        out.missingPart = curExt ++ ext ++ tgtSeed.drop k := by
  intro fuel
  induction fuel with
  | zero =>
    intro curK cb dist curExt mp out _ _ _ hrun _
    simp only [link] at hrun
    cases hrun
  | succ fuel ih =>
    intro curK cb dist curExt mp out hk hext hmext hrun hret
    have hlenle : ∀ (p : List Char) (k : Nat), k ≤ p.length → lastK p k = tgtSeed.take k →
        k ≤ tgtSeed.length := by
      intro p k hp h
      have := congrArg List.length h
      rw [length_lastK hp, List.length_take] at this
      omega
    simp only [link] at hrun
    split at hrun
    · cases hrun; exact absurd rfl hret
    · rw [substrFrom_lastK hext] at hrun
      simp only [bind_ok, substr_zero] at hrun
      rw [show (lastK curExt curK).length = curK from length_lastK hext,
        sizeSub_of_le (le_refl _), Nat.sub_self, substrFrom_of_le (Nat.zero_le _),
        List.drop_zero] at hrun
      simp only [bind_ok] at hrun
      obtain ⟨nb, hnb, hrun⟩ := bind_eq_ok hrun
      obtain ⟨w, hw, hrun⟩ := bind_eq_ok hrun
      obtain ⟨b, hb, hrun⟩ := bind_eq_ok hrun
      obtain ⟨⟨ext1, hext1⟩, hwnb, hwsame, hwfound⟩ :=
        linkWalk_spec merCounts tgtSeed curK LRLen solidThresh hk fuel _ w hw hext
          (fun _ => hnb)
      simp only at hext1 hwsame hwfound
      have hwlen : curK ≤ w.resPart1.length := by rw [hext1]; simp; omega
      have hbspec : (b.returned = true → ∃ c e,
            lastK (w.resPart1 ++ [c] ++ e) merSize = tgtSeed.take merSize ∧
            merSize ≤ tgtSeed.length ∧
            b.missingPart = w.resPart1 ++ [c] ++ e ++ tgtSeed.drop merSize) ∧
          (b.returned = false → b.found = true →
            ∃ e, b.resPart1 = curExt ++ e ∧ lastK (curExt ++ e) curK = tgtSeed.take curK) := by
        split at hb
        · rename_i hcond
          have hspec := linkBranches_spec _ tgtSeed curK w.dist w.resPart1
            (fun ext mp1 => merSize ≤ ext.length → ∃ e,
              lastK (ext ++ e) merSize = tgtSeed.take merSize ∧ merSize ≤ tgtSeed.length ∧
              mp1 = ext ++ e ++ tgtSeed.drop merSize)
            (by
              intro cb1 d1 ext2 mp1 out1 hcall hret1 hlen2
              obtain ⟨e, k, hk2, hkt, hl, hmp⟩ :=
                ih merSize cb1 d1 ext2 mp1 out1 hm hlen2 hlen2 hcall hret1
              have hkm : k = merSize := by rcases hk2 with h | h <;> exact h
              subst hkm
              exact ⟨e, hl, hkt, hmp⟩)
            w.neighbours cb mp b
            (by
              intro n hn
              obtain ⟨_, h2, c, h3, h4, _⟩ := neighbour_of_lastK hk hwlen (hwnb hcond.1) hn
              exact ⟨h2, c, h3, h4⟩)
            hb
          refine ⟨fun h => ?_, fun h1 h2 => ?_⟩
          · obtain ⟨c, hq⟩ := hspec.1 h
            obtain ⟨e, h1, h2, h3⟩ := hq (by rw [hext1]; simp; omega)
            exact ⟨c, e, h1, h2, h3⟩
          · obtain ⟨c, h3, h4⟩ := hspec.2 h1 h2
            refine ⟨ext1 ++ [c], ?_, ?_⟩
            · rw [h3, hext1]; simp
            · rw [← List.append_assoc, ← hext1]; exact h4
        · cases hb
          refine ⟨fun h => by simp at h, fun _ hf => ?_⟩
          simp only at hf ⊢
          refine ⟨ext1, hext1, ?_⟩
          rw [← hext1]
          by_cases h0 : decide (lastK curExt curK = tgtSeed.take curK) = true
          · have := hwsame h0
            rw [this]
            simpa using h0
          · exact (hwfound (by simpa using h0) hf).1
      split at hrun
      · rename_i hr
        cases hrun
        obtain ⟨c, e, h1, h2, h3⟩ := hbspec.1 hr
        refine ⟨ext1 ++ [c] ++ e, merSize, Or.inr rfl, h2, ?_, ?_⟩
        · rw [← h1, hext1]; simp
        · simp only; rw [h3, hext1]; simp
      · rename_i hr
        split at hrun
        · cases hrun; exact absurd rfl hret
        · rename_i hf
          obtain ⟨rest, hrest, hrun⟩ := bind_eq_ok hrun
          cases hrun
          obtain ⟨e, h1, h2⟩ := hbspec.2 (by simpa using hr) (by simpa using hf)
          have hkt := hlenle (curExt ++ e) curK (by simp; omega) h2
          rw [substrFrom_of_le hkt] at hrest
          cases hrest
          exact ⟨e, curK, Or.inl rfl, hkt, h2, by simp only; rw [h1]⟩

/-- Second loop of `link` when every recursive call fails at its entry test
(branch budget used up): the loop is left normally, and `found` is set exactly
when one of the neighbours is the first k-mer of the target. -/
theorem linkBranches_no_budget (callLink : Nat → Nat → List Char → List Char → Run LinkOut)
    (tgtSeed : List Char) (curK dist : Nat) (res : List Char)
    (hcall : ∀ cb d ext mp, 0 < cb →
      callLink cb d ext mp = .ok { ret := 0, curBranches := cb, missingPart := [] }) :
    ∀ (nbrs : List (List Char)) (cb : Nat) (mp : List Char),
      cb + nbrs.length < 2 ^ 32 →
      (∀ n ∈ nbrs, n.length = curK ∧ ∃ c, charAt n (sub32 curK 1) = .ok c) →
      ∃ b, linkBranches callLink tgtSeed curK dist res nbrs cb mp = .ok b ∧
        b.returned = false ∧ (b.found = true ↔ tgtSeed.take curK ∈ nbrs) := by
  intro nbrs
  induction nbrs with
  | nil =>
    intro cb mp _ _
    exact ⟨_, rfl, rfl, by simp⟩
  | cons n rest ih =>
    intro cb mp hcb hn
    obtain ⟨hlen, c, hc⟩ := hn n (List.mem_cons_self _ _)
    simp only [linkBranches, substr_zero, bind_ok, hc, hlen]
    by_cases heq : n = tgtSeed.take curK
    · simp only [heq, if_true]
      exact ⟨_, rfl, rfl, by simp⟩
    · simp only [heq, if_false]
      have hadd : add32 cb 1 = cb + 1 := add32_of_lt (by simp at hcb; omega)
      rw [hadd, hcall (cb + 1) _ _ _ (by omega)]
      simp only [bind_ok, ne_eq, not_true_eq_false, if_false]
      obtain ⟨b, hb, h1, h2⟩ := ih (cb + 1) [] (by simp at hcb; omega)
        (fun m hm => hn m (List.mem_cons_of_mem _ hm))
      refine ⟨b, hb, h1, ?_⟩
      rw [h2, List.mem_cons]
      constructor
      · exact fun h => Or.inr h
      · rintro (h | h)
        · exact absurd h.symm heq
        · exact h

/-- C4 (the code at the failing input): with an empty count table the search
from `ACGT` towards `TTTT` finds no neighbour and `link` returns 0 through its
last `return`; `missingPart`, which held `X` at the call, still holds `X`. -/
theorem link_failure_keeps_missingPart :
    link (fun _ => 0) ['A', 'C', 'G', 'T'] ['T', 'T', 'T', 'T'] 4 [] 0 0 ['A', 'C', 'G', 'T']
      ['X'] 4 100 5 1 1 8 = .ok { ret := 0, curBranches := 0, missingPart := ['X'] } := by
  decide

/-- C5 (as amended): with `maxBranches = 0` and the branch counter at 0 (and
`curK ≥ minOrder`, `dist ≤ LRLen`, path and target seed at least `curK` long,
the last k-mer of the path different from the first k-mer of the target), if
the first loop of `link` ends, before the target is matched, at a k-mer with
two or more neighbours, then `link` returns; it returns failure unless one of
these neighbours is the first k-mer of the target (and the distance is still
within `LRLen`), in which case it returns success. Nothing of the count table
beyond the neighbours of the branch point is read. -/
theorem link_no_budget_at_branch (merCounts : MerCounts) (srcSeed tgtSeed : List Char)
    (curK : Nat) (visited : List (List Char)) (dist : Nat) (curExt missingPart : List Char)
    (merSize LRLen solidThresh minOrder fuel : Nat) (nb : List (List Char)) (w : WalkState)
    (hk : curK < 2 ^ 32) (hmin : minOrder ≤ curK) (hd : dist ≤ LRLen)
    (hext : curK ≤ curExt.length) (htgt : curK ≤ tgtSeed.length)
    (hne : lastK curExt curK ≠ tgtSeed.take curK)
    (hnb : getNeighbours (lastK curExt curK) curK 0 merCounts solidThresh = .ok nb)
    (hwalk : linkWalk merCounts tgtSeed curK LRLen solidThresh fuel
      { found := false, neighbours := nb, dist := dist, resPart1 := curExt } = .ok w)
    (hwf : w.found = false) (hw2 : 2 ≤ w.neighbours.length) (hfuel : 1 ≤ fuel) :
    ∃ out, link merCounts srcSeed tgtSeed curK visited 0 dist curExt missingPart merSize LRLen
        0 solidThresh minOrder (fuel + 1) = .ok out ∧
      (out.ret = 0 ∨ out.ret = 1) ∧
      (out.ret = 1 ↔ w.dist ≤ LRLen ∧ tgtSeed.take curK ∈ w.neighbours) := by
  obtain ⟨⟨ext1, hext1⟩, hwnb, _, _⟩ :=
    linkWalk_spec merCounts tgtSeed curK LRLen solidThresh hk fuel _ w hwalk hext (fun _ => hnb)
  simp only at hext1
  have hwlen : curK ≤ w.resPart1.length := by rw [hext1]; simp; omega
  have hguard : ¬ (curK < minOrder ∨ 0 > 0 ∨ dist > LRLen) := by omega
  have hdec : decide (lastK curExt curK = tgtSeed.take curK) = false := by simpa using hne
  simp only [link, hguard, if_false, substrFrom_lastK hext, bind_ok, substr_zero]
  rw [show (lastK curExt curK).length = curK from length_lastK hext,
    sizeSub_of_le (le_refl _), Nat.sub_self, substrFrom_of_le (Nat.zero_le _), List.drop_zero]
  simp only [bind_ok, hnb, hdec, hwalk, hwf, true_and]
  by_cases hcond : w.neighbours.length > 1 ∧ w.dist ≤ LRLen
  · simp only [hcond, and_self, if_true]
    obtain ⟨fuel1, rfl⟩ : ∃ f, fuel = f + 1 := ⟨fuel - 1, by omega⟩
    have hlen5 : w.neighbours.length ≤ 5 := by
      have h := hwnb hwf
      simp only [getNeighbours, if_true] at h
      split at h
      · rw [← Run.ok.inj h]
        unfold sortByCount
        rw [List.length_insertionSort]
        exact le_trans (List.length_filter_le _ _) (by simp [alphabet])
      · cases h
      · cases h
      · cases h
    obtain ⟨b, hb, hret, hfound⟩ := linkBranches_no_budget
      (fun curBranches1 dist1 curExt1 missingPart1 =>
        link merCounts srcSeed tgtSeed merSize visited curBranches1 dist1 curExt1 missingPart1
          merSize LRLen 0 solidThresh minOrder (fuel1 + 1))
      tgtSeed curK w.dist w.resPart1
      (by
        intro cb d e m hcb
        have : merSize < minOrder ∨ cb > 0 ∨ d > LRLen := Or.inr (Or.inl hcb)
        simp only [link, this, if_true])
      w.neighbours 0 missingPart (by omega)
      (by
        intro n hn
        obtain ⟨_, h2, c, h3, _, _⟩ := neighbour_of_lastK hk hwlen (hwnb hwf) hn
        exact ⟨h2, c, h3⟩)
    rw [hb]
    simp only [bind_ok, hret, Bool.false_eq_true, if_false]
    by_cases hf : b.found = true
    · have hf2 : ¬ b.found = false := by simp [hf]
      simp only [hf2, if_false, substrFrom_of_le htgt, bind_ok]
      exact ⟨_, rfl, Or.inr rfl, fun _ => ⟨trivial, hfound.1 hf⟩, fun _ => rfl⟩
    · have hf2 : b.found = false := by simpa using hf
      simp only [hf2, if_true]
      refine ⟨_, rfl, Or.inl rfl, ?_⟩
      simp only [zero_ne_one, false_iff, not_and]
      intro _ hmem
      exact hf (hfound.2 hmem)
  · simp only [hcond, and_false, if_false, bind_ok, Bool.false_eq_true, hwf, if_true]
    refine ⟨_, rfl, Or.inl rfl, ?_⟩
    simp only [zero_ne_one, false_iff, not_and]
    intro h1
    exact absurd ⟨by omega, h1⟩ hcond

/-- C6 (as amended): for an order `curK ≥ 1` with `curK ≥ minOrder`, branch
counter `≤ maxBranches`, `dist ≤ LRLen`, path and target seed at least `curK`
long, and the last `curK` bases of the path equal to the first `curK` bases
of the target seed, `link` returns success, `missingPart` is the path followed
by the target seed without its first `curK` bases, and the branch counter is
unchanged. -/
theorem link_immediate_success (merCounts : MerCounts) (srcSeed tgtSeed : List Char)
    (curK : Nat) (visited : List (List Char)) (curBranches dist : Nat)
    (curExt missingPart : List Char)
    (merSize LRLen maxBranches solidThresh minOrder fuel : Nat)
    (hk1 : 1 ≤ curK) (hmin : minOrder ≤ curK) (hcb : curBranches ≤ maxBranches)
    (hd : dist ≤ LRLen) (hext : curK ≤ curExt.length) (htgt : curK ≤ tgtSeed.length)
    (heq : lastK curExt curK = tgtSeed.take curK) (hfuel : 1 ≤ fuel) :
    link merCounts srcSeed tgtSeed curK visited curBranches dist curExt missingPart merSize
      LRLen maxBranches solidThresh minOrder fuel =
      .ok { ret := 1, curBranches := curBranches,
            missingPart := curExt ++ tgtSeed.drop curK } := by
  obtain ⟨fuel1, rfl⟩ : ∃ f, fuel = f + 1 := ⟨fuel - 1, by omega⟩
  have hguard : ¬ (curK < minOrder ∨ curBranches > maxBranches ∨ dist > LRLen) := by omega
  obtain ⟨nb, hnb⟩ := getNeighbours_right_ok (lastK curExt curK) curK merCounts solidThresh
    (by rw [length_lastK hext]; exact hk1)
  have hdec : decide (lastK curExt curK = tgtSeed.take curK) = true := by simpa using heq
  simp only [link, hguard, if_false, substrFrom_lastK hext, bind_ok, substr_zero]
  rw [show (lastK curExt curK).length = curK from length_lastK hext,
    sizeSub_of_le (le_refl _), Nat.sub_self, substrFrom_of_le (Nat.zero_le _), List.drop_zero]
  simp only [bind_ok, hnb, hdec]
  rw [linkWalk_found merCounts tgtSeed curK LRLen solidThresh fuel1
    { found := true, neighbours := nb, dist := dist, resPart1 := curExt } rfl]
  simp [substrFrom_of_le htgt, bind_ok]

/-- C6 (counterexample): at order 0 with `minOrder = 0` every condition of
the claim holds (the last 0 bases of the path are the first 0 bases of the
target seed), and `link` does not return: `getNeighbours` takes `substr(1)` of
the empty k-mer, which throws. -/
theorem link_order_zero_throws :
    ((0 : Nat) ≤ 0 ∧ (0 : Nat) ≤ 5 ∧ (0 : Nat) ≤ 100 ∧
      0 ≤ ['A', 'C', 'G', 'T'].length ∧
      lastK ['A', 'C', 'G', 'T'] 0 = List.take 0 ['A', 'C', 'G', 'T']) ∧
    link (fun _ => 0) ['A', 'C', 'G', 'T'] ['A', 'C', 'G', 'T'] 0 [] 0 0 ['A', 'C', 'G', 'T'] []
      4 100 5 1 0 8 = .outOfRange := by
  decide

/-- C8: whenever `link` returns success (path at least as long as the order
and the base order), `missingPart` starts with the path given at the call and
ends with the target seed: it is that path with bases appended until its last
k-mer is the first k-mer of the target seed (k the order, or the base order
when a recursive call found the target), followed by the target seed without
its first k bases. -/
theorem link_success_missingPart (merCounts : MerCounts) (srcSeed tgtSeed : List Char)
    (curK : Nat) (visited : List (List Char)) (curBranches dist : Nat)
    (curExt missingPart : List Char)
    (merSize LRLen maxBranches solidThresh minOrder fuel : Nat) (out : LinkOut)
    (hk : curK < 2 ^ 32) (hm : merSize < 2 ^ 32)
    (hext : curK ≤ curExt.length) (hmext : merSize ≤ curExt.length)
    (hrun : link merCounts srcSeed tgtSeed curK visited curBranches dist curExt missingPart
      merSize LRLen maxBranches solidThresh minOrder fuel = .ok out)
    (hret : out.ret = 1) :
    (∃ tail, out.missingPart = curExt ++ tail) ∧
    (∃ front, out.missingPart = front ++ tgtSeed) ∧
    ∃ ext k, (k = curK ∨ k = merSize) ∧ k ≤ tgtSeed.length ∧
      lastK (curExt ++ ext) k = tgtSeed.take k ∧
      out.missingPart = curExt ++ ext ++ tgtSeed.drop k := by
  obtain ⟨ext, k, hk2, hkt, hlast, hmp⟩ :=
    link_success_shape merCounts srcSeed tgtSeed visited merSize LRLen maxBranches solidThresh
      minOrder hm fuel curK curBranches dist curExt missingPart out hk hext hmext hrun
      (by rw [hret]; decide)
  refine ⟨⟨ext ++ tgtSeed.drop k, by rw [hmp]; simp⟩, ?_, ext, k, hk2, hkt, hlast, hmp⟩
  refine ⟨(curExt ++ ext).take ((curExt ++ ext).length - k), ?_⟩
  rw [hmp]
  conv_lhs => rw [← List.take_append_drop ((curExt ++ ext).length - k) (curExt ++ ext)]
  have : List.drop ((curExt ++ ext).length - k) (curExt ++ ext) = tgtSeed.take k := hlast
  rw [this, List.append_assoc, List.take_append_drop]

/-- C5 (counterexample): branch budget 0, counter 0, order 4, path `ACGT`,
target seed `CGTCAA`. The last k-mer of the path is not the first k-mer of the
target and has the two neighbours `CGTA` and `CGTC`, so the walk is at a
branch point before the target is matched; `link` returns success. -/
theorem link_no_budget_succeeds_at_branch :
    ((1 : Nat) ≤ 4 ∧ (0 : Nat) ≤ 100 ∧ 4 ≤ ['A', 'C', 'G', 'T'].length ∧
      4 ≤ ['C', 'G', 'T', 'C', 'A', 'A'].length ∧
      lastK ['A', 'C', 'G', 'T'] 4 ≠ List.take 4 ['C', 'G', 'T', 'C', 'A', 'A'] ∧
      getNeighbours (lastK ['A', 'C', 'G', 'T'] 4) 4 0 branchCounts 1 =
        .ok [['C', 'G', 'T', 'A'], ['C', 'G', 'T', 'C']]) ∧
    link branchCounts ['A', 'C', 'G', 'T'] ['C', 'G', 'T', 'C', 'A', 'A'] 4 [] 0 0
      ['A', 'C', 'G', 'T'] [] 4 100 0 1 1 8 =
      .ok { ret := 1, curBranches := 1, missingPart := ['A', 'C', 'G', 'T', 'C', 'A', 'A'] } := by
  decide

/-- Witness of `link_no_budget_at_branch`: one unambiguous step from `ACGT`
to `CGTA`, then a branch whose second neighbour `GTAC` starts the target. -/
theorem link_no_budget_at_branch_witness :
    (4 < 2 ^ 32 ∧ 1 ≤ 4 ∧ 0 ≤ 100 ∧ 4 ≤ ['A', 'C', 'G', 'T'].length ∧
      4 ≤ ['G', 'T', 'A', 'C', 'T', 'T'].length ∧
      lastK ['A', 'C', 'G', 'T'] 4 ≠ List.take 4 ['G', 'T', 'A', 'C', 'T', 'T'] ∧
      getNeighbours (lastK ['A', 'C', 'G', 'T'] 4) 4 0 walkBranchCounts 1 =
        .ok [['C', 'G', 'T', 'A']] ∧
      linkWalk walkBranchCounts ['G', 'T', 'A', 'C', 'T', 'T'] 4 100 1 7
        { found := false, neighbours := [['C', 'G', 'T', 'A']], dist := 0,
          resPart1 := ['A', 'C', 'G', 'T'] } =
        .ok { found := false, neighbours := [['G', 'T', 'A', 'A'], ['G', 'T', 'A', 'C']],
              dist := 1, resPart1 := ['A', 'C', 'G', 'T', 'A'] } ∧
      1 ≤ 7) ∧
    ∃ out, link walkBranchCounts ['A', 'C', 'G', 'T'] ['G', 'T', 'A', 'C', 'T', 'T'] 4 [] 0 0
        ['A', 'C', 'G', 'T'] [] 4 100 0 1 1 (7 + 1) = .ok out ∧
      (out.ret = 0 ∨ out.ret = 1) ∧
      (out.ret = 1 ↔ 1 ≤ 100 ∧
        List.take 4 ['G', 'T', 'A', 'C', 'T', 'T'] ∈
          [['G', 'T', 'A', 'A'], ['G', 'T', 'A', 'C']]) :=
  ⟨by decide,
   link_no_budget_at_branch walkBranchCounts ['A', 'C', 'G', 'T']
    ['G', 'T', 'A', 'C', 'T', 'T'] 4 [] 0 ['A', 'C', 'G', 'T'] [] 4 100 1 1 7
    [['C', 'G', 'T', 'A']]
    { found := false, neighbours := [['G', 'T', 'A', 'A'], ['G', 'T', 'A', 'C']],
      dist := 1, resPart1 := ['A', 'C', 'G', 'T', 'A'] }
    (by decide) (by decide) (by decide) (by decide) (by decide) (by decide) (by decide)
    (by decide) rfl (by decide) (by decide)⟩

/-- Witness of `link_immediate_success`: path `ACGT`, target seed `ACGTTT`. -/
theorem link_immediate_success_witness :
    (1 ≤ 4 ∧ 1 ≤ 4 ∧ 0 ≤ 5 ∧ 0 ≤ 100 ∧ 4 ≤ ['A', 'C', 'G', 'T'].length ∧
      4 ≤ ['A', 'C', 'G', 'T', 'T', 'T'].length ∧
      lastK ['A', 'C', 'G', 'T'] 4 = List.take 4 ['A', 'C', 'G', 'T', 'T', 'T'] ∧ 1 ≤ 3) ∧
    link branchCounts ['A', 'C', 'G', 'T'] ['A', 'C', 'G', 'T', 'T', 'T'] 4 [] 0 0
      ['A', 'C', 'G', 'T'] ['X'] 4 100 5 1 1 3 =
      .ok { ret := 1, curBranches := 0,
            missingPart := ['A', 'C', 'G', 'T'] ++ List.drop 4 ['A', 'C', 'G', 'T', 'T', 'T'] } :=
  ⟨by decide,
   link_immediate_success branchCounts ['A', 'C', 'G', 'T'] ['A', 'C', 'G', 'T', 'T', 'T'] 4 []
    0 0 ['A', 'C', 'G', 'T'] ['X'] 4 100 5 1 1 3 (by decide) (by decide) (by decide)
    (by decide) (by decide) (by decide) (by decide) (by decide)⟩

/-- Witness of `link_success_missingPart`: the first branch `CGTA` is a dead
end, the recursive call on the second branch `CGTC` reaches the target `GTCA`. -/
theorem link_success_missingPart_witness :
    (4 < 2 ^ 32 ∧ 4 < 2 ^ 32 ∧ 4 ≤ ['A', 'C', 'G', 'T'].length ∧
      4 ≤ ['A', 'C', 'G', 'T'].length ∧
      link detourCounts ['A', 'C', 'G', 'T'] ['G', 'T', 'C', 'A', 'A', 'A'] 4 [] 0 0
        ['A', 'C', 'G', 'T'] ['X'] 4 100 5 1 1 10 =
        .ok { ret := 1, curBranches := 2,
              missingPart := ['A', 'C', 'G', 'T', 'C', 'A', 'A', 'A'] } ∧
      (1 : Int) = 1) ∧
    ((∃ tail, ['A', 'C', 'G', 'T', 'C', 'A', 'A', 'A'] = ['A', 'C', 'G', 'T'] ++ tail) ∧
    (∃ front, ['A', 'C', 'G', 'T', 'C', 'A', 'A', 'A'] =
      front ++ ['G', 'T', 'C', 'A', 'A', 'A']) ∧
    ∃ ext k, (k = 4 ∨ k = 4) ∧ k ≤ ['G', 'T', 'C', 'A', 'A', 'A'].length ∧
      lastK (['A', 'C', 'G', 'T'] ++ ext) k = List.take k ['G', 'T', 'C', 'A', 'A', 'A'] ∧
      ['A', 'C', 'G', 'T', 'C', 'A', 'A', 'A'] =
        ['A', 'C', 'G', 'T'] ++ ext ++ List.drop k ['G', 'T', 'C', 'A', 'A', 'A']) :=
  ⟨by decide,
   link_success_missingPart detourCounts ['A', 'C', 'G', 'T'] ['G', 'T', 'C', 'A', 'A', 'A'] 4 []
    0 0 ['A', 'C', 'G', 'T'] ['X'] 4 100 5 1 1 10
    { ret := 1, curBranches := 2, missingPart := ['A', 'C', 'G', 'T', 'C', 'A', 'A', 'A'] }
    (by decide) (by decide) (by decide) (by decide) (by decide) rfl⟩

/-! ## Pile sequences -/

theorem substr_ok_or_throws (s : List Char) (pos len : Nat) :
    substr s pos len = .ok ((s.drop pos).take len) ∨ substr s pos len = .outOfRange := by
  unfold substr
  split
  · exact Or.inl rfl
  · exact Or.inr rfl

/-- The span computed for a consistent alignment that passed the inclusion
test starts at or before `tStart`, ends at or after `tEnd` inside the target,
and leaves room for the shift. -/
theorem remap_bounds (sequences : Sequences) (al : Alignment) (qBeg end_ : Nat)
    (hc : consistentWith sequences al) (hq : qBeg < 2 ^ 31) (he : end_ < 2 ^ 31)
    (hs : spansWindow al qBeg end_ (if qBeg > al.qStart then sub32 qBeg al.qStart else 0)
      = true) :
    (remap al qBeg end_).tBeg ≤ al.tStart ∧
    (remap al qBeg end_).tBeg + (remap al qBeg end_).shift ≤ al.tEnd ∧
    al.tEnd ≤ (remap al qBeg end_).tEnd ∧ (remap al qBeg end_).tEnd < 2 ^ 31 := by
  obtain ⟨h1, h2, h3, h4, h5, _⟩ := hc
  simp only [spansWindow, decide_eq_true_eq] at hs
  unfold remap
  simp only
  split_ifs at hs ⊢ with c1 c2 c3 c4 <;>
    simp only [toInt32, ofInt32, sub32, add32] at hs ⊢ <;>
    omega

theorem alignedSeq_ok_or_throws (revComp : List Char → List Char) (sequences : Sequences)
    (al : Alignment) (qBeg end_ : Nat) :
    (∃ t, alignedSeq revComp sequences al qBeg end_ = .ok t) ∨
      alignedSeq revComp sequences al qBeg end_ = .outOfRange := by
  unfold alignedSeq
  simp only
  rcases substr_ok_or_throws (sequences al.tName) (remap al qBeg end_).tBeg
    (add32 (sub32 (remap al qBeg end_).tEnd (remap al qBeg end_).tBeg) 1) with h | h
  · rw [h]
    simp only
    rcases substr_ok_or_throws
      (if al.strand = true then
        revComp (List.take (add32 (sub32 (remap al qBeg end_).tEnd (remap al qBeg end_).tBeg) 1)
          (List.drop (remap al qBeg end_).tBeg (sequences al.tName)))
      else List.take (add32 (sub32 (remap al qBeg end_).tEnd (remap al qBeg end_).tBeg) 1)
          (List.drop (remap al qBeg end_).tBeg (sequences al.tName)))
      (remap al qBeg end_).shift (remap al qBeg end_).length with h2 | h2
    · exact Or.inl ⟨_, h2⟩
    · exact Or.inr h2
  · rw [h]
    exact Or.inr rfl

/-- No `substr` throws for a consistent alignment that passed the inclusion
test. -/
theorem alignedSeq_ok (revComp : List Char → List Char) (sequences : Sequences)
    (al : Alignment) (qBeg end_ : Nat)
    (hrev : ∀ s, (revComp s).length = s.length)
    (hc : consistentWith sequences al) (hq : qBeg < 2 ^ 31) (he : end_ < 2 ^ 31)
    (hs : spansWindow al qBeg end_ (if qBeg > al.qStart then sub32 qBeg al.qStart else 0)
      = true) :
    ∃ t, alignedSeq revComp sequences al qBeg end_ = .ok t := by
  obtain ⟨b1, b2, b3, b4⟩ := remap_bounds sequences al qBeg end_ hc hq he hs
  obtain ⟨_, _, _, _, _, hseq⟩ := hc
  have hcount : add32 (sub32 (remap al qBeg end_).tEnd (remap al qBeg end_).tBeg) 1 =
      (remap al qBeg end_).tEnd - (remap al qBeg end_).tBeg + 1 := by
    rw [sub32_of_le (by omega) (by omega), add32_of_lt (by omega)]
  unfold alignedSeq
  simp only
  rw [hcount]
  have h1 : substr (sequences al.tName) (remap al qBeg end_).tBeg
      ((remap al qBeg end_).tEnd - (remap al qBeg end_).tBeg + 1) =
      .ok (((sequences al.tName).drop (remap al qBeg end_).tBeg).take
        ((remap al qBeg end_).tEnd - (remap al qBeg end_).tBeg + 1)) := by
    unfold substr
    rw [if_pos (by omega)]
  rw [h1]
  simp only
  have hlen : (remap al qBeg end_).shift ≤
      (((sequences al.tName).drop (remap al qBeg end_).tBeg).take
        ((remap al qBeg end_).tEnd - (remap al qBeg end_).tBeg + 1)).length := by
    rw [List.length_take, List.length_drop]
    omega
  cases hst : al.strand with
  | true =>
    simp only [if_true]
    unfold substr
    rw [if_pos (by rw [hrev]; exact hlen)]
    exact ⟨_, rfl⟩
  | false =>
    simp only [Bool.false_eq_true, if_false]
    unfold substr
    rw [if_pos hlen]
    exact ⟨_, rfl⟩

/-- The loop over the alignments only appends to the pile, unless a `substr`
throws. -/
theorem pileLoop_ok_or_throws (revComp : List Char → List Char) (sequences : Sequences)
    (qBeg end_ merSize : Nat) :
    ∀ (alignments : List Alignment) (curPile : List (List Char)),
      (∃ more, pileLoop revComp sequences qBeg end_ merSize alignments curPile
        = .ok (curPile ++ more)) ∨
      pileLoop revComp sequences qBeg end_ merSize alignments curPile = .outOfRange := by
  intro alignments
  induction alignments with
  | nil =>
    intro curPile
    exact Or.inl ⟨[], by simp [pileLoop]⟩
  | cons al rest ih =>
    intro curPile
    simp only [pileLoop]
    by_cases hs : spansWindow al qBeg end_
        (if qBeg > al.qStart then sub32 qBeg al.qStart else 0) = true
    · rw [if_pos hs]
      rcases alignedSeq_ok_or_throws revComp sequences al qBeg end_ with ⟨t, ht⟩ | ht
      · rw [ht]
        simp only
        by_cases hl : t.length ≥ merSize
        · rw [if_pos hl]
          rcases ih (curPile ++ [t]) with ⟨more, hm⟩ | hm
          · exact Or.inl ⟨[t] ++ more, by rw [hm]; simp⟩
          · exact Or.inr hm
        · rw [if_neg hl]
          exact ih curPile
      · rw [ht]
        exact Or.inr rfl
    · rw [if_neg hs]
      exact ih curPile

/-- The loop over consistent alignments returns the pile it was given with
entries appended. -/
theorem pileLoop_ok (revComp : List Char → List Char) (sequences : Sequences)
    (qBeg end_ merSize : Nat) (hrev : ∀ s, (revComp s).length = s.length)
    (hq : qBeg < 2 ^ 31) (he : end_ < 2 ^ 31) :
    ∀ (alignments : List Alignment) (curPile : List (List Char)),
      (∀ al ∈ alignments, consistentWith sequences al) →
      ∃ more, pileLoop revComp sequences qBeg end_ merSize alignments curPile
        = .ok (curPile ++ more) := by
  intro alignments
  induction alignments with
  | nil =>
    intro curPile _
    exact ⟨[], by simp [pileLoop]⟩
  | cons al rest ih =>
    intro curPile hal
    have hrest : ∀ a ∈ rest, consistentWith sequences a :=
      fun a ha => hal a (List.mem_cons_of_mem _ ha)
    simp only [pileLoop]
    by_cases hs : spansWindow al qBeg end_
        (if qBeg > al.qStart then sub32 qBeg al.qStart else 0) = true
    · rw [if_pos hs]
      obtain ⟨t, ht⟩ := alignedSeq_ok revComp sequences al qBeg end_ hrev
        (hal al (List.mem_cons_self _ _)) hq he hs
      rw [ht]
      simp only
      by_cases hl : t.length ≥ merSize
      · rw [if_pos hl]
        obtain ⟨more, hm⟩ := ih (curPile ++ [t]) hrest
        exact ⟨[t] ++ more, by rw [hm]; simp⟩
      · rw [if_neg hl]
        exact ih curPile hrest
    · rw [if_neg hs]
      exact ih curPile hrest

/-- C9: for a window `(qBeg, end)` with `qBeg ≤ end`: if `end` is smaller than
the length of the stored template sequence (the entry of the store named by
the first alignment's `qName`), a pile returned by `getAlignmentPileSeq` has
at index 0 the template's substring `[qBeg, end]`, of length `end - qBeg + 1`;
the call returns such a pile unless a `substr` on an aligned sequence throws,
and it does return one when every alignment is consistent with the store. If
`end` is at least the stored template length the returned pile is empty. -/
theorem getAlignmentPileSeq_template (revComp : List Char → List Char) (al0 : Alignment)
    (rest : List Alignment) (minSupport windowSize windowOverlap : Nat)
    (sequences : Sequences) (qBeg end_ merSize : Nat)
    (hq : qBeg ≤ end_) (hend : end_ < 2 ^ 32) :
    (end_ < (sequences al0.qName).length → (sequences al0.qName).length < 2 ^ 32 →
      ((∃ more, getAlignmentPileSeq revComp (al0 :: rest) minSupport windowSize windowOverlap
          sequences qBeg end_ merSize =
          .ok (((sequences al0.qName).drop qBeg).take (end_ - qBeg + 1) :: more)) ∨
        getAlignmentPileSeq revComp (al0 :: rest) minSupport windowSize windowOverlap
          sequences qBeg end_ merSize = .outOfRange) ∧
      (((sequences al0.qName).drop qBeg).take (end_ - qBeg + 1)).length = end_ - qBeg + 1 ∧
      ((∀ s, (revComp s).length = s.length) → end_ < 2 ^ 31 →
        (∀ al ∈ al0 :: rest, consistentWith sequences al) →
        ∃ more, getAlignmentPileSeq revComp (al0 :: rest) minSupport windowSize windowOverlap
          sequences qBeg end_ merSize =
          .ok (((sequences al0.qName).drop qBeg).take (end_ - qBeg + 1) :: more))) ∧
    ((sequences al0.qName).length ≤ end_ →
      getAlignmentPileSeq revComp (al0 :: rest) minSupport windowSize windowOverlap
        sequences qBeg end_ merSize = .ok []) := by
  have hguard : sub32 (add32 qBeg (add32 (sub32 end_ qBeg) 1)) 1 = end_ := by
    unfold sub32 add32; omega
  constructor
  · intro hlt htpl
    have hlen : add32 (sub32 end_ qBeg) 1 = end_ - qBeg + 1 := by
      unfold sub32 add32; omega
    have hng : ¬ (end_ ≥ (sequences al0.qName).length) := by omega
    have hsub : substr (sequences al0.qName) qBeg (end_ - qBeg + 1) =
        .ok (((sequences al0.qName).drop qBeg).take (end_ - qBeg + 1)) := by
      unfold substr
      rw [if_pos (by omega)]
    have hrun : getAlignmentPileSeq revComp (al0 :: rest) minSupport windowSize windowOverlap
        sequences qBeg end_ merSize =
        pileLoop revComp sequences qBeg end_ merSize (al0 :: rest)
          [((sequences al0.qName).drop qBeg).take (end_ - qBeg + 1)] := by
      have hguard2 : sub32 (add32 qBeg (end_ - qBeg + 1)) 1 = end_ := by
        rw [← hlen]; exact hguard
      simp only [getAlignmentPileSeq, hlen, hguard2, hng, if_false, hsub]
    rw [hrun]
    refine ⟨?_, ?_, ?_⟩
    · rcases pileLoop_ok_or_throws revComp sequences qBeg end_ merSize (al0 :: rest)
        [((sequences al0.qName).drop qBeg).take (end_ - qBeg + 1)] with ⟨more, hm⟩ | hm
      · exact Or.inl ⟨more, by rw [hm]; rfl⟩
      · exact Or.inr hm
    · rw [List.length_take, List.length_drop]; omega
    · intro hrev he hal
      obtain ⟨more, hm⟩ := pileLoop_ok revComp sequences qBeg end_ merSize hrev (by omega) he
        (al0 :: rest) [((sequences al0.qName).drop qBeg).take (end_ - qBeg + 1)] hal
      exact ⟨more, by rw [hm]; rfl⟩
  · intro hge
    simp only [getAlignmentPileSeq, hguard]
    rw [if_pos hge]

/-- Witness of `getAlignmentPileSeq_template`: window (4, 7) of the
end-to-end scenario. -/
theorem getAlignmentPileSeq_template_witness :
    (4 ≤ 7 ∧ 7 < 2 ^ 32) ∧
    ((7 < (scenarioSequences scenarioAlignment.qName).length →
      (scenarioSequences scenarioAlignment.qName).length < 2 ^ 32 →
      ((∃ more, getAlignmentPileSeq id (scenarioAlignment :: []) 2 4 0 scenarioSequences 4 7 4 =
          .ok (((scenarioSequences scenarioAlignment.qName).drop 4).take (7 - 4 + 1) :: more)) ∨
        getAlignmentPileSeq id (scenarioAlignment :: []) 2 4 0 scenarioSequences 4 7 4
          = .outOfRange) ∧
      (((scenarioSequences scenarioAlignment.qName).drop 4).take (7 - 4 + 1)).length
        = 7 - 4 + 1 ∧
      ((∀ s : List Char, (id s).length = s.length) → 7 < 2 ^ 31 →
        (∀ al ∈ scenarioAlignment :: [], consistentWith scenarioSequences al) →
        ∃ more, getAlignmentPileSeq id (scenarioAlignment :: []) 2 4 0 scenarioSequences 4 7 4 =
          .ok (((scenarioSequences scenarioAlignment.qName).drop 4).take (7 - 4 + 1)
            :: more))) ∧
    ((scenarioSequences scenarioAlignment.qName).length ≤ 7 →
      getAlignmentPileSeq id (scenarioAlignment :: []) 2 4 0 scenarioSequences 4 7 4 = .ok [])) :=
  ⟨by decide,
   getAlignmentPileSeq_template id scenarioAlignment [] 2 4 0 scenarioSequences 4 7 4
    (by decide) (by decide)⟩

/-! ## Order of the windows -/

/-- Windows pushed by the forward scan begin one after the other, share at
most `overlap` positions, and have exactly `windowSize` positions. -/
theorem forwardScan_order (coverages : List Nat) (tplLen minSupport windowSize : Nat)
    (ov : Int) (hT : tplLen < 2 ^ 32) (hW : 1 ≤ windowSize) (hov0 : 0 ≤ ov)
    (hov : ov < windowSize) :
    ∀ (fuel i beg curLen : Nat) (pilesPos ws : List (Nat × Nat)),
      beg + curLen = i → curLen ≤ windowSize →
      windowsOrdered ov.toNat pilesPos →
      (∀ w ∈ pilesPos, w.1 < beg ∧ w.2 + 1 ≤ beg + ov.toNat) →
      (∀ w ∈ pilesPos, w.1 + 1 < tplLen ∧ w.2 + 1 = w.1 + windowSize) →
      forwardScan coverages tplLen minSupport windowSize ov fuel i beg curLen pilesPos = .ok ws →
      windowsOrdered ov.toNat ws ∧
        ∀ w ∈ ws, w.1 + 1 < tplLen ∧ w.2 + 1 = w.1 + windowSize := by
  intro fuel
  induction fuel with
  | zero =>
    intro i beg curLen pilesPos ws _ _ hord _ hwin hrun
    simp only [forwardScan] at hrun
    split at hrun
    · cases hrun
    · cases hrun; exact ⟨hord, hwin⟩
  | succ fuel ih =>
    intro i beg curLen pilesPos ws hsum hcur hord hbeg hwin hrun
    simp only [forwardScan] at hrun
    split at hrun
    · rename_i hlt
      split at hrun
      · rename_i hge
        have hi1 : (if ov ≠ 0 then ofInt32 ((i : Int) - ov) else i) = i - ov.toNat := by
          split
          · exact ofInt32_sub_of_le hov0 (by omega) (by omega)
          · omega
        rw [hi1] at hrun
        have h1 : add32 beg curLen = i := by rw [add32_of_lt (by omega)]; exact hsum
        have h2 : sub32 i 1 = i - 1 := sub32_of_le (by omega) (by omega)
        rw [h1, h2] at hrun
        have hord1 : windowsOrdered ov.toNat (pilesPos ++ [(beg, i - 1)]) := by
          unfold windowsOrdered at hord ⊢
          rw [List.pairwise_append]
          refine ⟨hord, List.pairwise_singleton _ _, ?_⟩
          intro a ha b hb
          rw [List.mem_singleton.1 hb]
          exact hbeg a ha
        have hwin1 : ∀ w ∈ pilesPos ++ [(beg, i - 1)],
            w.1 + 1 < tplLen ∧ w.2 + 1 = w.1 + windowSize := by
          intro w hw
          rcases List.mem_append.1 hw with hw | hw
          · exact hwin w hw
          · rw [List.mem_singleton.1 hw]
            constructor
            · simp only; omega
            · simp only; omega
        split at hrun
        · cases hrun
        · split at hrun
          · refine ih _ _ _ _ ws (by omega) (by omega) hord1 ?_ hwin1 hrun
            intro w hw
            rcases List.mem_append.1 hw with hw | hw
            · have := hbeg w hw; omega
            · rw [List.mem_singleton.1 hw]; simp only; omega
          · refine ih _ _ _ _ ws (by omega) (by omega) hord1 ?_ hwin1 hrun
            intro w hw
            rcases List.mem_append.1 hw with hw | hw
            · have := hbeg w hw; omega
            · rw [List.mem_singleton.1 hw]; simp only; omega
      · split at hrun
        · cases hrun
        · split at hrun
          · refine ih _ _ _ _ ws (by omega) (by omega) hord ?_ hwin hrun
            intro w hw
            have := hbeg w hw; omega
          · exact ih _ _ _ _ ws (by omega) (by omega) hord hbeg hwin hrun
    · cases hrun; exact ⟨hord, hwin⟩

/-- The backward scan appends at most one window to the list it is given. -/
theorem backwardScan_appends (coverages : List Nat) (minSupport windowSize : Nat) :
    ∀ (i end_ curLen : Nat) (pilesPos ws : List (Nat × Nat)),
      backwardScan coverages minSupport windowSize i end_ curLen pilesPos = .ok ws →
      ∃ bw, ws = pilesPos ++ bw ∧ bw.length ≤ 1 := by
  intro i
  induction i with
  | zero =>
    intro end_ curLen pilesPos ws hrun
    simp only [backwardScan] at hrun
    cases hrun
    exact ⟨[], by simp, by simp⟩
  | succ i ih =>
    intro end_ curLen pilesPos ws hrun
    simp only [backwardScan] at hrun
    split at hrun
    · split at hrun
      · cases hrun
      · cases hrun
        exact ⟨_, rfl, by simp⟩
    · split at hrun
      · cases hrun
      · split at hrun
        · exact ih _ _ _ ws hrun
        · exact ih _ _ _ ws hrun

/-- Shape of the result of `getAlignmentPilesPositions` on a template of
length `tplLen ≥ 1` with alignments inside it: the windows of the forward
scan, in order, followed by at most one window of the backward scan. -/
theorem getAlignmentPilesPositions_shape (tplLen : Nat) (alignments : List Alignment)
    (minSupport windowSize : Nat) (overlap : Int) (fuel : Nat)
    (hT1 : 1 ≤ tplLen) (hT : tplLen < 2 ^ 32)
    (hal : ∀ al ∈ alignments, al.qStart ≤ al.qEnd ∧ al.qEnd < tplLen)
    (hW : 1 ≤ windowSize) (hov0 : 0 ≤ overlap) (hov : overlap < windowSize)
    (hfuel : windowSize * tplLen ≤ fuel) :
    ∃ cov fw bw, coverageArray tplLen alignments = .ok cov ∧ cov.length = tplLen ∧
      forwardScan cov tplLen minSupport windowSize overlap fuel 0 0 0 [] = .ok fw ∧
      getAlignmentPilesPositions fuel tplLen alignments minSupport windowSize overlap
        = .ok (fw ++ bw) ∧
      bw.length ≤ 1 ∧ windowsOrdered overlap.toNat fw ∧
      ∀ w ∈ fw, w.1 + 1 < tplLen ∧ w.2 + 1 = w.1 + windowSize := by
  obtain ⟨cov, hcov, hlen, _⟩ := coverageArray_spec tplLen alignments hal
  obtain ⟨fw, hf⟩ := forwardScan_terminates cov tplLen minSupport windowSize overlap hlen hT
    hov0 hov fuel 0 0 0 [] rfl (by omega) (by omega) (by simpa using hfuel)
  obtain ⟨hord, hwin⟩ := forwardScan_order cov tplLen minSupport windowSize overlap hT hW
    hov0 hov fuel 0 0 0 [] fw rfl (by omega) (by simp [windowsOrdered]) (by simp) (by simp) hf
  have hs : sub32 tplLen 1 = tplLen - 1 := sub32_of_le hT1 hT
  obtain ⟨ws, hb⟩ := backwardScan_terminates cov minSupport windowSize (tplLen - 1)
    (tplLen - 1) 0 fw (by omega)
  obtain ⟨bw, hbw, hbl⟩ := backwardScan_appends cov minSupport windowSize _ _ _ fw ws hb
  refine ⟨cov, fw, bw, hcov, hlen, hf, ?_, hbl, hord, hwin⟩
  simp only [getAlignmentPilesPositions, hcov, hf, hs]
  rw [hb, hbw]

theorem length_le_of_increasing_begins (n : Nat) :
    ∀ (l : List (Nat × Nat)) (m : Nat), m ≤ n →
      l.Pairwise (fun a b => a.1 < b.1) → (∀ w ∈ l, m ≤ w.1 ∧ w.1 < n) →
      l.length + m ≤ n := by
  intro l
  induction l with
  | nil => intro m hm _ _; simpa using hm
  | cons a t ih =>
    intro m _ hp hw
    rw [List.pairwise_cons] at hp
    have ha := hw a (List.mem_cons_self _ _)
    have := ih (a.1 + 1) (by omega) hp.2
      (fun w hwt => ⟨hp.1 w hwt, (hw w (List.mem_cons_of_mem _ hwt)).2⟩)
    simp only [List.length_cons]
    omega

/-- C11 (as amended): for `windowSize ≥ 1` and `0 ≤ overlap < windowSize` (a
template of length `tplLen ≥ 1`, alignments inside it), the sequence returned
by `getAlignmentPilesPositions` is the windows of the forward scan followed by
at most one window of the backward scan; any two windows of the forward scan
share at most `overlap` template positions, and with `overlap = 0` they are
pairwise disjoint. -/
theorem forward_windows_share_at_most_overlap (tplLen : Nat) (alignments : List Alignment)
    (minSupport windowSize : Nat) (overlap : Int) (fuel : Nat)
    (hT1 : 1 ≤ tplLen) (hT : tplLen < 2 ^ 32)
    (hal : ∀ al ∈ alignments, al.qStart ≤ al.qEnd ∧ al.qEnd < tplLen)
    (hW : 1 ≤ windowSize) (hov0 : 0 ≤ overlap) (hov : overlap < windowSize)
    (hfuel : windowSize * tplLen ≤ fuel) :
    ∃ cov fw bw, coverageArray tplLen alignments = .ok cov ∧
      forwardScan cov tplLen minSupport windowSize overlap fuel 0 0 0 [] = .ok fw ∧
      getAlignmentPilesPositions fuel tplLen alignments minSupport windowSize overlap
        = .ok (fw ++ bw) ∧
      bw.length ≤ 1 ∧
      fw.Pairwise (fun a b => sharedPositions a b ≤ overlap.toNat) ∧
      (overlap = 0 → fw.Pairwise (fun a b => sharedPositions a b = 0)) := by
  obtain ⟨cov, fw, bw, hcov, _, hf, hrun, hbl, hord, _⟩ :=
    getAlignmentPilesPositions_shape tplLen alignments minSupport windowSize overlap fuel
      hT1 hT hal hW hov0 hov hfuel
  have hshare : fw.Pairwise (fun a b => sharedPositions a b ≤ overlap.toNat) := by
    refine List.Pairwise.imp ?_ hord
    intro a b hab
    unfold sharedPositions
    omega
  refine ⟨cov, fw, bw, hcov, hf, hrun, hbl, hshare, ?_⟩
  intro h0
  refine List.Pairwise.imp ?_ hshare
  intro a b hab
  rw [h0] at hab
  simpa using hab

/-- Witness of `forward_windows_share_at_most_overlap` in the end-to-end
scenario. -/
theorem forward_windows_share_at_most_overlap_witness :
    (1 ≤ 11 ∧ 11 < 2 ^ 32 ∧
      (∀ al ∈ [scenarioAlignment], al.qStart ≤ al.qEnd ∧ al.qEnd < 11) ∧
      1 ≤ 4 ∧ (0 : Int) ≤ 0 ∧ (0 : Int) < (4 : Nat) ∧ 4 * 11 ≤ 44) ∧
    ∃ cov fw bw, coverageArray 11 [scenarioAlignment] = .ok cov ∧
      forwardScan cov 11 2 4 0 44 0 0 0 [] = .ok fw ∧
      getAlignmentPilesPositions 44 11 [scenarioAlignment] 2 4 0 = .ok (fw ++ bw) ∧
      bw.length ≤ 1 ∧
      fw.Pairwise (fun a b => sharedPositions a b ≤ (0 : Int).toNat) ∧
      ((0 : Int) = 0 → fw.Pairwise (fun a b => sharedPositions a b = 0)) :=
  ⟨by decide,
   forward_windows_share_at_most_overlap 11 [scenarioAlignment] 2 4 0 44 (by decide)
    (by decide) (by decide) (by decide) (by decide) (by decide) (by decide)⟩

/-- C11 (counterexample): a template of nine bases, all with coverage 2,
`minSupport = 2`, `windowSize = 4`, `overlap = 0`: the returned windows are
(0,3), (4,7), (5,8), and the adjacent windows (4,7) and (5,8) share three
positions. -/
theorem adjacent_windows_share_three_positions :
    (1 ≤ 4 ∧ (0 : Int) ≤ 0 ∧ (0 : Int) < (4 : Nat)) ∧
    getAlignmentPilesPositions 36 9 [{ scenarioAlignment with qLength := 9, qEnd := 8 }] 2 4 0
      = .ok [(0, 3), (4, 7), (5, 8)] ∧
    sharedPositions (4, 7) (5, 8) = 3 := by
  decide

/-- C17 (as amended): for `windowSize ≥ 1` and `0 ≤ overlap < windowSize` (a
template of length `tplLen ≥ 1`, alignments inside it), the backward scan of
`getAlignmentPilesPositions` appends at most one window to the windows of the
forward scan, and the windows of the forward scan are pairwise different; two
equal windows of the returned sequence can only be the appended window and a
window of the forward scan. -/
theorem backward_scan_appends_at_most_one (tplLen : Nat) (alignments : List Alignment)
    (minSupport windowSize : Nat) (overlap : Int) (fuel : Nat)
    (hT1 : 1 ≤ tplLen) (hT : tplLen < 2 ^ 32)
    (hal : ∀ al ∈ alignments, al.qStart ≤ al.qEnd ∧ al.qEnd < tplLen)
    (hW : 1 ≤ windowSize) (hov0 : 0 ≤ overlap) (hov : overlap < windowSize)
    (hfuel : windowSize * tplLen ≤ fuel) :
    ∃ cov fw bw, coverageArray tplLen alignments = .ok cov ∧
      forwardScan cov tplLen minSupport windowSize overlap fuel 0 0 0 [] = .ok fw ∧
      getAlignmentPilesPositions fuel tplLen alignments minSupport windowSize overlap
        = .ok (fw ++ bw) ∧
      bw.length ≤ 1 ∧ fw.Nodup := by
  obtain ⟨cov, fw, bw, hcov, _, hf, hrun, hbl, hord, _⟩ :=
    getAlignmentPilesPositions_shape tplLen alignments minSupport windowSize overlap fuel
      hT1 hT hal hW hov0 hov hfuel
  refine ⟨cov, fw, bw, hcov, hf, hrun, hbl, ?_⟩
  refine List.Pairwise.imp ?_ hord
  intro a b hab heq
  rw [heq] at hab
  omega

/-- Witness of `backward_scan_appends_at_most_one` in the end-to-end scenario. -/
theorem backward_scan_appends_at_most_one_witness :
    (1 ≤ 11 ∧ 11 < 2 ^ 32 ∧
      (∀ al ∈ [scenarioAlignment], al.qStart ≤ al.qEnd ∧ al.qEnd < 11) ∧
      1 ≤ 4 ∧ (0 : Int) ≤ 0 ∧ (0 : Int) < (4 : Nat) ∧ 4 * 11 ≤ 44) ∧
    ∃ cov fw bw, coverageArray 11 [scenarioAlignment] = .ok cov ∧
      forwardScan cov 11 2 4 0 44 0 0 0 [] = .ok fw ∧
      getAlignmentPilesPositions 44 11 [scenarioAlignment] 2 4 0 = .ok (fw ++ bw) ∧
      bw.length ≤ 1 ∧ fw.Nodup :=
  ⟨by decide,
   backward_scan_appends_at_most_one 11 [scenarioAlignment] 2 4 0 44 (by decide)
    (by decide) (by decide) (by decide) (by decide) (by decide) (by decide)⟩

/-- C17 (counterexample): a template of ten bases with coverage 2 on
positions 0..7 and 1 on positions 8 and 9, `minSupport = 2`, `windowSize = 4`,
`overlap = 0`: the forward scan emits (0,3) and (4,7), the backward scan
appends (4,7) again. -/
theorem backward_scan_repeats_window :
    (1 ≤ 4 ∧ (0 : Int) ≤ 0 ∧ (0 : Int) < (4 : Nat)) ∧
    coverageArray 10 [{ scenarioAlignment with qLength := 10, qEnd := 7 }]
      = .ok [2, 2, 2, 2, 2, 2, 2, 2, 1, 1] ∧
    forwardScan [2, 2, 2, 2, 2, 2, 2, 2, 1, 1] 10 2 4 0 40 0 0 0 [] = .ok [(0, 3), (4, 7)] ∧
    getAlignmentPilesPositions 40 10 [{ scenarioAlignment with qLength := 10, qEnd := 7 }] 2 4 0
      = .ok [(0, 3), (4, 7), (4, 7)] := by
  decide

/-- C20: for a coverage array of `tplLen ≥ 1` entries, `windowSize ≥ 1` and
`0 ≤ overlap < windowSize`, both scans of `getAlignmentPilesPositions` end
(the forward scan within `windowSize * tplLen` iterations); the begins of the
windows of the forward scan strictly increase, so that it emits at most
`tplLen` windows, and no more than `tplLen` windows are returned in all. -/
theorem scans_terminate (coverages : List Nat) (tplLen minSupport windowSize : Nat)
    (overlap : Int) (fuel : Nat)
    (hlen : coverages.length = tplLen) (hT1 : 1 ≤ tplLen) (hT : tplLen < 2 ^ 32)
    (hW : 1 ≤ windowSize) (hov0 : 0 ≤ overlap) (hov : overlap < windowSize)
    (hfuel : windowSize * tplLen ≤ fuel) :
    ∃ fw ws, forwardScan coverages tplLen minSupport windowSize overlap fuel 0 0 0 [] = .ok fw ∧
      backwardScan coverages minSupport windowSize (sub32 tplLen 1) (sub32 tplLen 1) 0 fw
        = .ok ws ∧
      fw.Pairwise (fun a b => a.1 < b.1) ∧ fw.length ≤ tplLen ∧ ws.length ≤ tplLen := by
  obtain ⟨fw, hf⟩ := forwardScan_terminates coverages tplLen minSupport windowSize overlap
    hlen hT hov0 hov fuel 0 0 0 [] rfl (by omega) (by omega) (by simpa using hfuel)
  obtain ⟨hord, hwin⟩ := forwardScan_order coverages tplLen minSupport windowSize overlap hT
    hW hov0 hov fuel 0 0 0 [] fw rfl (by omega) (by simp [windowsOrdered]) (by simp)
    (by simp) hf
  have hs : sub32 tplLen 1 = tplLen - 1 := sub32_of_le hT1 hT
  obtain ⟨ws, hb⟩ := backwardScan_terminates coverages minSupport windowSize (tplLen - 1)
    (tplLen - 1) 0 fw (by omega)
  obtain ⟨bw, hbw, hbl⟩ := backwardScan_appends coverages minSupport windowSize _ _ _ fw ws hb
  have hinc : fw.Pairwise (fun a b => a.1 < b.1) := List.Pairwise.imp (fun h => h.1) hord
  have hcount := length_le_of_increasing_begins (tplLen - 1) fw 0 (by omega) hinc
    (fun w hw => ⟨Nat.zero_le _, by have := (hwin w hw).1; omega⟩)
  refine ⟨fw, ws, hf, by rw [hs]; exact hb, hinc, by omega, ?_⟩
  rw [hbw, List.length_append]
  omega

/-- Witness of `scans_terminate`: the coverage array of the end-to-end
scenario. -/
theorem scans_terminate_witness :
    ([2, 2, 2, 2, 2, 2, 2, 2, 2, 2, 2].length = 11 ∧ 1 ≤ 11 ∧ 11 < 2 ^ 32 ∧ 1 ≤ 4 ∧
      (0 : Int) ≤ 0 ∧ (0 : Int) < (4 : Nat) ∧ 4 * 11 ≤ 44) ∧
    ∃ fw ws, forwardScan [2, 2, 2, 2, 2, 2, 2, 2, 2, 2, 2] 11 2 4 0 44 0 0 0 [] = .ok fw ∧
      backwardScan [2, 2, 2, 2, 2, 2, 2, 2, 2, 2, 2] 2 4 (sub32 11 1) (sub32 11 1) 0 fw
        = .ok ws ∧
      fw.Pairwise (fun a b => a.1 < b.1) ∧ fw.length ≤ 11 ∧ ws.length ≤ 11 :=
  ⟨by decide,
   scans_terminate [2, 2, 2, 2, 2, 2, 2, 2, 2, 2, 2] 11 2 4 0 44 (by decide) (by decide)
    (by decide) (by decide) (by decide) (by decide) (by decide)⟩

/-! ## Coverage values -/

/-- C12: for alignments with `qStart ≤ qEnd < tplLen` (fewer than `2^32 - 1`
of them, so that no `unsigned` counter wraps), the coverage array of lines
33-47, which is also what `getCoverages` returns when `tplLen` is the
`qLength` of the first alignment, has exactly `tplLen` entries; entry `i` is
1 plus the number of alignments of the list with `qStart ≤ i ≤ qEnd`, and so
is at least 1. -/
theorem coverage_array_counts (tplLen : Nat) (alignments : List Alignment)
    (hal : ∀ al ∈ alignments, al.qStart ≤ al.qEnd ∧ al.qEnd < tplLen)
    (hn : alignments.length < 2 ^ 32 - 1) :
    ∃ cov, coverageArray tplLen alignments = .ok cov ∧
      (∀ al0 rest, alignments = al0 :: rest → al0.qLength = tplLen →
        getCoverages alignments = .ok cov) ∧
      cov.length = tplLen ∧
      ∀ i, i < tplLen →
        cov[i]? = some (1 + alignments.countP (fun al => decide (al.qStart ≤ i ∧ i ≤ al.qEnd))) ∧
        1 ≤ 1 + alignments.countP (fun al => decide (al.qStart ≤ i ∧ i ≤ al.qEnd)) := by
  obtain ⟨cov, hcov, hlen, hget⟩ := coverageArray_spec tplLen alignments hal
  refine ⟨cov, hcov, ?_, hlen, ?_⟩
  · intro al0 rest hcons hq
    subst hcons
    simp only [getCoverages, hq]
    exact hcov
  · intro i hi
    refine ⟨?_, by omega⟩
    rw [hget i hi]
    unfold coverage
    have hle : alignments.countP (fun al => decide (al.qStart ≤ i ∧ i ≤ al.qEnd))
        ≤ alignments.length := List.countP_le_length _
    congr 1
    omega

/-- Witness of `coverage_array_counts` in the end-to-end scenario. -/
theorem coverage_array_counts_witness :
    ((∀ al ∈ [scenarioAlignment], al.qStart ≤ al.qEnd ∧ al.qEnd < 11) ∧
      [scenarioAlignment].length < 2 ^ 32 - 1) ∧
    ∃ cov, coverageArray 11 [scenarioAlignment] = .ok cov ∧
      (∀ al0 rest, [scenarioAlignment] = al0 :: rest → al0.qLength = 11 →
        getCoverages [scenarioAlignment] = .ok cov) ∧
      cov.length = 11 ∧
      ∀ i, i < 11 →
        cov[i]? = some (1 + [scenarioAlignment].countP
          (fun al => decide (al.qStart ≤ i ∧ i ≤ al.qEnd))) ∧
        1 ≤ 1 + [scenarioAlignment].countP (fun al => decide (al.qStart ≤ i ∧ i ≤ al.qEnd)) :=
  ⟨by decide, coverage_array_counts 11 [scenarioAlignment] (by decide) (by decide)⟩

/-! ## Termination of link -/

/-- The first loop of `link` ends within `LRLen + 1 - dist` iterations when
`LRLen < 2^32 - 1`, with a distance that has not decreased and is at most
`LRLen + 1`. -/
theorem linkWalk_returns (merCounts : MerCounts) (tgtSeed : List Char)
    (curK LRLen solidThresh : Nat) (hk : curK < 2 ^ 32) (hL : LRLen < 2 ^ 32 - 1) :
    ∀ (fuel : Nat) (s : WalkState),
      curK ≤ s.resPart1.length →
      (s.found = false →
        getNeighbours (lastK s.resPart1 curK) curK 0 merCounts solidThresh = .ok s.neighbours) →
      s.dist ≤ LRLen + 1 → LRLen + 1 ≤ fuel + s.dist →
      ∃ w, linkWalk merCounts tgtSeed curK LRLen solidThresh fuel s = .ok w ∧
        s.dist ≤ w.dist ∧ w.dist ≤ LRLen + 1 := by
  intro fuel
  induction fuel with
  | zero =>
    intro s _ _ hd hf
    have : ¬ (s.found = false ∧ s.neighbours.length = 1 ∧ s.dist ≤ LRLen) := by omega
    exact ⟨s, by simp only [linkWalk, this, if_false], le_refl _, hd⟩
  | succ fuel ih =>
    intro s hres hnb hd hf
    have hsame : linkWalk merCounts tgtSeed curK LRLen solidThresh (fuel + 1) s = .ok s →
        ∃ w, linkWalk merCounts tgtSeed curK LRLen solidThresh (fuel + 1) s = .ok w ∧
          s.dist ≤ w.dist ∧ w.dist ≤ LRLen + 1 := fun h => ⟨s, h, le_refl _, hd⟩
    obtain ⟨found, nb, dist, res⟩ := s
    match found, nb, hnb with
    | true, nb, _ => exact hsame (linkWalk_found _ _ _ _ _ _ _ rfl)
    | false, [], _ => exact hsame (by simp [linkWalk])
    | false, _ :: _ :: _, _ => exact hsame (by simp [linkWalk])
    | false, [curRead], hnb =>
      by_cases hdl : dist ≤ LRLen
      · simp only at hres hd hf
        obtain ⟨hk1, hlen, c, hc, _, _⟩ :=
          neighbour_of_lastK hk hres (hnb rfl) (List.mem_singleton_self curRead)
        have hres1 : curK ≤ (res ++ [c]).length := by simp; omega
        simp only [linkWalk, hdl, if_true, substr_zero, bind_ok, hc, hlen]
        by_cases heq : curRead = List.take curK tgtSeed
        · rw [if_pos heq, linkWalk_found _ _ _ _ _ _ _ rfl]
          exact ⟨_, rfl, le_refl _, hd⟩
        · rw [if_neg heq, substrFrom_lastK hres1]
          simp only [bind_ok]
          rw [show (lastK (res ++ [c]) curK).length = curK from length_lastK hres1,
            sizeSub_of_le (le_refl _), Nat.sub_self, substrFrom_of_le (Nat.zero_le _),
            List.drop_zero]
          simp only [bind_ok]
          obtain ⟨nb1, hnb1⟩ := getNeighbours_right_ok (lastK (res ++ [c]) curK) curK
            merCounts solidThresh (by rw [length_lastK hres1]; exact hk1)
          rw [hnb1]
          simp only [bind_ok]
          have hstep : distStep dist curK curK = dist + 1 :=
            distStep_one hk1 hk (by omega)
          rw [hstep]
          obtain ⟨w, hw, h1, h2⟩ := ih
            { found := false, neighbours := nb1, dist := dist + 1, resPart1 := res ++ [c] }
            hres1 (fun _ => hnb1) (by simp only; omega) (by simp only; omega)
          exact ⟨w, hw, by simp only at h1 ⊢; omega, h2⟩
      · exact hsame (by simp [linkWalk, hdl])

/-- The second loop of `link` ends when every recursive call does: it returns,
or a recursive call at order `merSize = 0` throws. -/
theorem linkBranches_returns (callLink : Nat → Nat → List Char → List Char → Run LinkOut)
    (tgtSeed : List Char) (curK dist merSize : Nat) (res : List Char)
    (hk1 : 1 ≤ curK) (hk : curK < 2 ^ 32) (hd : dist + 1 < 2 ^ 32)
    (hcall : ∀ cb c mp, (∃ out, callLink cb (dist + 1) (res ++ [c]) mp = .ok out) ∨
      (callLink cb (dist + 1) (res ++ [c]) mp = .outOfRange ∧ merSize = 0)) :
    ∀ (nbrs : List (List Char)) (cb : Nat) (mp : List Char),
      (∀ n ∈ nbrs, n.length = curK ∧ ∃ c, charAt n (sub32 curK 1) = .ok c) →
      (∃ b, linkBranches callLink tgtSeed curK dist res nbrs cb mp = .ok b) ∨
      (linkBranches callLink tgtSeed curK dist res nbrs cb mp = .outOfRange ∧ merSize = 0) := by
  intro nbrs
  induction nbrs with
  | nil =>
    intro cb mp _
    exact Or.inl ⟨_, rfl⟩
  | cons n rest ih =>
    intro cb mp hn
    obtain ⟨hlen, c, hc⟩ := hn n (List.mem_cons_self _ _)
    simp only [linkBranches, substr_zero, bind_ok, hc, hlen, distStep_one hk1 hk hd]
    by_cases heq : n = List.take curK tgtSeed
    · rw [if_pos heq]
      exact Or.inl ⟨_, rfl⟩
    · rw [if_neg heq]
      rcases hcall (add32 cb 1) c mp with ⟨out, hout⟩ | ⟨hout, hm⟩
      · rw [hout]
        simp only [bind_ok]
        by_cases hret : out.ret ≠ 0
        · rw [if_pos hret]
          exact Or.inl ⟨_, rfl⟩
        · rw [if_neg hret]
          exact ih _ _ (fun m hm => hn m (List.mem_cons_of_mem _ hm))
      · rw [hout]
        exact Or.inr ⟨rfl, hm⟩

/-- With `LRLen < 2^32 - 1`, a call of `link` whose path and target seed are
at least as long as the order and the base order ends within `LRLen + 2 - dist`
levels of recursion: it returns, or it throws because the order or the base
order is 0. -/
theorem link_returns_aux (merCounts : MerCounts) (srcSeed tgtSeed : List Char)
    (visited : List (List Char)) (merSize LRLen maxBranches solidThresh minOrder : Nat)
    (hm : merSize < 2 ^ 32) (hmt : merSize ≤ tgtSeed.length) (hL : LRLen < 2 ^ 32 - 1) :
    ∀ (fuel curK curBranches dist : Nat) (curExt missingPart : List Char),
      curK < 2 ^ 32 → curK ≤ curExt.length → merSize ≤ curExt.length →
      curK ≤ tgtSeed.length → dist ≤ LRLen + 1 → LRLen + 2 ≤ fuel + dist →
      (∃ out, link merCounts srcSeed tgtSeed curK visited curBranches dist curExt missingPart
        merSize LRLen maxBranches solidThresh minOrder fuel = .ok out) ∨
      (link merCounts srcSeed tgtSeed curK visited curBranches dist curExt missingPart
        merSize LRLen maxBranches solidThresh minOrder fuel = .outOfRange ∧
        (curK = 0 ∨ merSize = 0)) := by
  intro fuel
  induction fuel with
  | zero =>
    intro curK cb dist curExt mp _ _ _ _ hd hf
    omega
  | succ fuel ih =>
    intro curK cb dist curExt mp hk hext hmext hkt hd hf
    by_cases hg : curK < minOrder ∨ cb > maxBranches ∨ dist > LRLen
    · exact Or.inl ⟨{ ret := 0, curBranches := cb, missingPart := [] },
        by simp only [link, hg, if_true]⟩
    · have hdl : dist ≤ LRLen := by omega
      simp only [link, hg, if_false, substrFrom_lastK hext, bind_ok, substr_zero]
      rw [show (lastK curExt curK).length = curK from length_lastK hext,
        sizeSub_of_le (le_refl _), Nat.sub_self, substrFrom_of_le (Nat.zero_le _),
        List.drop_zero]
      simp only [bind_ok]
      by_cases hk0 : curK = 0
      · right
        subst hk0
        refine ⟨?_, Or.inl rfl⟩
        have : lastK curExt 0 = [] := by simp [lastK]
        rw [this]
        rfl
      · have hk1 : 1 ≤ curK := by omega
        obtain ⟨nb, hnb⟩ := getNeighbours_right_ok (lastK curExt curK) curK merCounts
          solidThresh (by rw [length_lastK hext]; exact hk1)
        rw [hnb]
        simp only [bind_ok]
        obtain ⟨w, hw, hw1, hw2⟩ := linkWalk_returns merCounts tgtSeed curK LRLen solidThresh
          hk hL fuel
          { found := decide (lastK curExt curK = List.take curK tgtSeed), neighbours := nb,
            dist := dist, resPart1 := curExt }
          hext (fun _ => hnb) hd (by simp only; omega)
        obtain ⟨⟨ext1, hext1⟩, hwnb, _, _⟩ :=
          linkWalk_spec merCounts tgtSeed curK LRLen solidThresh hk fuel _ w hw hext
            (fun _ => hnb)
        simp only at hext1 hw1
        have hwlen : curK ≤ w.resPart1.length := by rw [hext1]; simp; omega
        rw [hw]
        simp only [bind_ok]
        have hfinal : ∀ b : BranchState,
            ∃ out, (if b.returned = true then
              (Run.ok { ret := 1, curBranches := b.curBranches, missingPart := b.missingPart }
                : Run LinkOut)
            else if b.found = false then
              Run.ok { ret := 0, curBranches := b.curBranches, missingPart := b.missingPart }
            else do
              let rest ← substrFrom tgtSeed curK
              Run.ok { ret := 1, curBranches := b.curBranches,
                       missingPart := b.resPart1 ++ rest }) = .ok out := by
          intro b
          split
          · exact ⟨_, rfl⟩
          · split
            · exact ⟨_, rfl⟩
            · rw [substrFrom_of_le hkt]
              exact ⟨_, rfl⟩
        by_cases hcond : w.found = false ∧ w.neighbours.length > 1 ∧ w.dist ≤ LRLen
        · rw [if_pos hcond]
          rcases linkBranches_returns
            (fun curBranches1 dist1 curExt1 missingPart1 =>
              link merCounts srcSeed tgtSeed merSize visited curBranches1 dist1 curExt1
                missingPart1 merSize LRLen maxBranches solidThresh minOrder fuel)
            tgtSeed curK w.dist merSize w.resPart1 hk1 hk (by omega)
            (by
              intro cb1 c mp1
              rcases ih merSize cb1 (w.dist + 1) (w.resPart1 ++ [c]) mp1 hm
                (by rw [hext1]; simp; omega) (by rw [hext1]; simp; omega) hmt
                (by omega) (by omega) with h | ⟨h, h0⟩
              · exact Or.inl h
              · exact Or.inr ⟨h, by omega⟩)
            w.neighbours cb mp
            (by
              intro n hn
              obtain ⟨_, h2, c, h3, _, _⟩ := neighbour_of_lastK hk hwlen (hwnb hcond.1) hn
              exact ⟨h2, c, h3⟩) with ⟨b, hb⟩ | ⟨hb, h0⟩
          · rw [hb]
            simp only [bind_ok]
            exact Or.inl (hfinal b)
          · rw [hb]
            exact Or.inr ⟨rfl, Or.inr h0⟩
        · rw [if_neg hcond]
          simp only [bind_ok]
          exact Or.inl (hfinal ⟨false, w.found, w.resPart1, cb, mp⟩)

/-- C13 (as amended): with `LRLen < 2^32 - 1`, `link` ends on every input
whose path and target seed are at least as long as the order and the base
order, within `LRLen + 3` levels of recursion and iterations of its first
loop: every recursive call and every iteration of the first loop adds one to
the distance, and a call with `dist > LRLen` returns at once. The call
returns a value, or throws because the order or the base order is 0. -/
theorem link_terminates (merCounts : MerCounts) (srcSeed tgtSeed : List Char)
    (curK : Nat) (visited : List (List Char)) (curBranches dist : Nat)
    (curExt missingPart : List Char)
    (merSize LRLen maxBranches solidThresh minOrder fuel : Nat)
    (hk : curK < 2 ^ 32) (hm : merSize < 2 ^ 32) (hL : LRLen < 2 ^ 32 - 1)
    (hext : curK ≤ curExt.length) (hmext : merSize ≤ curExt.length)
    (hkt : curK ≤ tgtSeed.length) (hmt : merSize ≤ tgtSeed.length)
    (hfuel : LRLen + 3 ≤ fuel) :
    (∃ out, link merCounts srcSeed tgtSeed curK visited curBranches dist curExt missingPart
      merSize LRLen maxBranches solidThresh minOrder fuel = .ok out) ∨
    (link merCounts srcSeed tgtSeed curK visited curBranches dist curExt missingPart
      merSize LRLen maxBranches solidThresh minOrder fuel = .outOfRange ∧
      (curK = 0 ∨ merSize = 0)) := by
  by_cases hd : dist ≤ LRLen
  · exact link_returns_aux merCounts srcSeed tgtSeed visited merSize LRLen maxBranches
      solidThresh minOrder hm hmt hL fuel curK curBranches dist curExt missingPart hk hext
      hmext hkt (by omega) (by omega)
  · obtain ⟨fuel1, rfl⟩ : ∃ f, fuel = f + 1 := ⟨fuel - 1, by omega⟩
    have hg : curK < minOrder ∨ curBranches > maxBranches ∨ dist > LRLen :=
      Or.inr (Or.inr (by omega))
    exact Or.inl ⟨{ ret := 0, curBranches := curBranches, missingPart := [] },
      by simp only [link, hg, if_true]⟩

/-- Witness of `link_terminates`: the detour table, cap 100. -/
theorem link_terminates_witness :
    (4 < 2 ^ 32 ∧ 4 < 2 ^ 32 ∧ 100 < 2 ^ 32 - 1 ∧ 4 ≤ ['A', 'C', 'G', 'T'].length ∧
      4 ≤ ['A', 'C', 'G', 'T'].length ∧ 4 ≤ ['G', 'T', 'C', 'A', 'A', 'A'].length ∧
      4 ≤ ['G', 'T', 'C', 'A', 'A', 'A'].length ∧ 100 + 3 ≤ 103) ∧
    ((∃ out, link detourCounts ['A', 'C', 'G', 'T'] ['G', 'T', 'C', 'A', 'A', 'A'] 4 [] 0 0
      ['A', 'C', 'G', 'T'] [] 4 100 5 1 1 103 = .ok out) ∨
    (link detourCounts ['A', 'C', 'G', 'T'] ['G', 'T', 'C', 'A', 'A', 'A'] 4 [] 0 0
      ['A', 'C', 'G', 'T'] [] 4 100 5 1 1 103 = .outOfRange ∧
      ((4 : Nat) = 0 ∨ (4 : Nat) = 0))) :=
  ⟨by decide,
   link_terminates detourCounts ['A', 'C', 'G', 'T'] ['G', 'T', 'C', 'A', 'A', 'A'] 4 [] 0 0
    ['A', 'C', 'G', 'T'] [] 4 100 5 1 1 103 (by decide) (by decide) (by decide) (by decide)
    (by decide) (by decide) (by decide) (by decide)⟩

theorem lastK_replicate (m : Nat) (h : 4 ≤ m) :
    lastK (List.replicate m 'A') 4 = ['A', 'A', 'A', 'A'] := by
  unfold lastK
  rw [List.length_replicate, List.drop_replicate, show m - (m - 4) = 4 by omega]
  rfl

/-- With `LRLen = 2^32 - 1` the first loop of `link` on a path of `A`s in the
table `loopCounts` is still running after any number of iterations. -/
theorem linkWalk_loops (fuel : Nat) : ∀ (m dist : Nat), 4 ≤ m → dist < 2 ^ 32 →
    linkWalk loopCounts ['C', 'C', 'C', 'C'] 4 (2 ^ 32 - 1) 1 fuel
      { found := false, neighbours := [['A', 'A', 'A', 'A']], dist := dist,
        resPart1 := List.replicate m 'A' } = .outOfFuel := by
  induction fuel with
  | zero =>
    intro m dist _ hd
    have : dist ≤ 2 ^ 32 - 1 := by omega
    simp only [linkWalk, List.length_cons, List.length_nil, this, and_self, if_true]
  | succ fuel ih =>
    intro m dist hm hd
    have hdl : dist ≤ 2 ^ 32 - 1 := by omega
    have hne : ¬ (['A', 'A', 'A', 'A'] = List.take 4 ['C', 'C', 'C', 'C']) := by decide
    have hc : charAt ['A', 'A', 'A', 'A'] (sub32 4 1) = .ok 'A' := by decide
    have hres : List.replicate m 'A' ++ ['A'] = List.replicate (m + 1) 'A' :=
      (List.replicate_succ' m 'A').symm
    have hsrc : substrFrom (List.replicate (m + 1) 'A')
        (sizeSub (List.replicate (m + 1) 'A').length 4) = .ok ['A', 'A', 'A', 'A'] := by
      rw [substrFrom_lastK (by rw [List.length_replicate]; omega),
        lastK_replicate (m + 1) (by omega)]
    have hkm : substrFrom ['A', 'A', 'A', 'A'] (sizeSub ['A', 'A', 'A', 'A'].length 4)
        = .ok ['A', 'A', 'A', 'A'] := by decide
    have hnb : getNeighbours ['A', 'A', 'A', 'A'] 4 0 loopCounts 1
        = .ok [['A', 'A', 'A', 'A']] := by decide
    have hstep : distStep dist 4 4 < 2 ^ 32 := by
      unfold distStep
      exact Nat.mod_lt _ (by decide)
    simp only [linkWalk, hdl, if_true, substr_zero, bind_ok, List.length_cons,
      List.length_nil, hne, if_false, hc, hres, hsrc, hkm, hnb]
    exact ih (m + 1) _ (by omega) hstep

/-- C13 (counterexample): order and base order 4, path `AAAA`, target seed
`CCCC`, `LRLen = 2^32 - 1`, and a count table in which `AAAA` is its own only
neighbour. The first loop of `link` appends `A` for ever: `dist` wraps around
before it can exceed `LRLen`, so no number of iterations ends the call. -/
theorem link_loops_forever :
    (4 ≤ ['A', 'A', 'A', 'A'].length ∧ 4 ≤ ['C', 'C', 'C', 'C'].length) ∧
    ∀ fuel, link loopCounts ['A', 'A', 'A', 'A'] ['C', 'C', 'C', 'C'] 4 [] 0 0
      ['A', 'A', 'A', 'A'] [] 4 (2 ^ 32 - 1) 5 1 1 fuel = .outOfFuel := by
  refine ⟨by decide, ?_⟩
  intro fuel
  cases fuel with
  | zero => rfl
  | succ fuel =>
    have hg : ¬ (4 < 1 ∨ 0 > 5 ∨ 0 > 2 ^ 32 - 1) := by decide
    have hsrc : substrFrom ['A', 'A', 'A', 'A'] (sizeSub ['A', 'A', 'A', 'A'].length 4)
        = .ok ['A', 'A', 'A', 'A'] := by decide
    have hnb : getNeighbours ['A', 'A', 'A', 'A'] 4 0 loopCounts 1
        = .ok [['A', 'A', 'A', 'A']] := by decide
    have hdec : decide (['A', 'A', 'A', 'A'] = List.take 4 ['C', 'C', 'C', 'C']) = false := by
      decide
    have hwalk := linkWalk_loops fuel 4 0 (by decide) (by decide)
    have hrep : List.replicate 4 'A' = ['A', 'A', 'A', 'A'] := rfl
    rw [hrep] at hwalk
    simp only [link, hg, if_false, hsrc, bind_ok, substr_zero, hnb, hdec, hwalk]
    rfl

/-! ## Frame of the linear extension -/

/-- C19: for an order `k ≥ 1` and a sequence `S` of at least `k` bases,
`extendRight` returns a sequence that starts with `S` and `extendLeft` one
that ends with `S`, and in both cases the length of the result is `|S|` plus
the returned distance. -/
theorem extend_keeps_input (merCounts : MerCounts)
    (curK extLen solidThresh : Nat) (S : List Char) (fuel : Nat)
    (hk1 : 1 ≤ curK) (hk : curK < 2 ^ 32) (hS : curK ≤ S.length) (hE : extLen < 2 ^ 32)
    (hfuel : extLen ≤ fuel) :
    (∃ d LR, extendRight fuel merCounts curK extLen S solidThresh = .ok (d, LR) ∧
      (∃ tail, LR = S ++ tail) ∧ LR.length = S.length + d) ∧
    (∃ d LR, extendLeft fuel merCounts curK extLen S solidThresh = .ok (d, LR) ∧
      (∃ head, LR = head ++ S) ∧ LR.length = S.length + d) := by
  constructor
  · obtain ⟨nb, hnb⟩ := getNeighbours_right_ok (lastK S curK) curK merCounts solidThresh
      (by rw [length_lastK hS]; exact hk1)
    obtain ⟨d, LR, hrun, _, _, h3, h4, _, _⟩ :=
      extendRightLoop_spec merCounts curK extLen solidThresh hk1 hk hE fuel nb 0 S hS hnb
        (by omega) (by omega)
    refine ⟨d, LR, ?_, ⟨LR.drop S.length, ?_⟩, by simpa using h4⟩
    · simp only [extendRight, substrFrom_lastK hS, bind_ok, hnb]
      exact hrun
    · conv_lhs => rw [← List.take_append_drop S.length LR]
      rw [h3]
  · obtain ⟨nb, hnb⟩ := getNeighbours_left_ok (S.take curK) curK 1 merCounts solidThresh
      (by decide)
    obtain ⟨d, LR, hrun, _, _, h3, h4, _, _⟩ :=
      extendLeftLoop_spec merCounts curK extLen solidThresh hk1 hk hE fuel nb 0 S hS hnb
        (by omega) (by omega)
    refine ⟨d, LR, ?_, ⟨LR.take d, ?_⟩, by simpa using h4⟩
    · simp only [extendLeft, substr_zero, bind_ok, hnb]
      exact hrun
    · conv_lhs => rw [← List.take_append_drop d LR]
      have : List.drop d LR = S := by simpa using h3
      rw [this]

/-- Witness of `extend_keeps_input`: the chain table, order 4, cap 10, from
`ACGT`. -/
theorem extend_keeps_input_witness :
    (1 ≤ 4 ∧ 4 < 2 ^ 32 ∧ 4 ≤ ['A', 'C', 'G', 'T'].length ∧ 10 < 2 ^ 32 ∧ 10 ≤ 10) ∧
    ((∃ d LR, extendRight 10 chainCounts 4 10 ['A', 'C', 'G', 'T'] 1 = .ok (d, LR) ∧
      (∃ tail, LR = ['A', 'C', 'G', 'T'] ++ tail) ∧
      LR.length = ['A', 'C', 'G', 'T'].length + d) ∧
    (∃ d LR, extendLeft 10 chainCounts 4 10 ['A', 'C', 'G', 'T'] 1 = .ok (d, LR) ∧
      (∃ head, LR = head ++ ['A', 'C', 'G', 'T']) ∧
      LR.length = ['A', 'C', 'G', 'T'].length + d)) :=
  ⟨by decide,
   extend_keeps_input chainCounts 4 10 1 ['A', 'C', 'G', 'T'] 10 (by decide) (by decide)
    (by decide) (by decide) (by decide)⟩

/-! ## Solid k-mers along the path of link -/

theorem solidPath_nil (merCounts : MerCounts) (solidThresh k : Nat) (base : List Char) :
    solidPath merCounts solidThresh k base [] := by
  intro j hj
  simp at hj

theorem solidPath_singleton {merCounts : MerCounts} {solidThresh k : Nat} {base : List Char}
    {c : Char} (h : solidThresh ≤ merCounts (lastK (base ++ [c]) k)) :
    solidPath merCounts solidThresh k base [c] := by
  intro j hj
  have : j = 0 := by simpa using hj
  subst this
  exact h

theorem solidPath_append {merCounts : MerCounts} {solidThresh k : Nat}
    {base e1 e2 : List Char} (h1 : solidPath merCounts solidThresh k base e1)
    (h2 : solidPath merCounts solidThresh k (base ++ e1) e2) :
    solidPath merCounts solidThresh k base (e1 ++ e2) := by
  intro j hj
  by_cases hlt : j < e1.length
  · rw [List.take_append_of_le_length (by omega)]
    exact h1 j hlt
  · rw [List.length_append] at hj
    have h := h2 (j - e1.length) (by omega)
    rw [List.take_append_eq_append_take, List.take_of_length_le (by omega),
      show j + 1 - e1.length = j - e1.length + 1 by omega, ← List.append_assoc]
    exact h

/-- Every base the first loop of `link` appends closes a solid k-mer. -/
theorem linkWalk_solid (merCounts : MerCounts) (tgtSeed : List Char)
    (curK LRLen solidThresh : Nat) (hk : curK < 2 ^ 32) :
    ∀ (fuel : Nat) (s w : WalkState),
      linkWalk merCounts tgtSeed curK LRLen solidThresh fuel s = .ok w →
      curK ≤ s.resPart1.length →
      (s.found = false →
        getNeighbours (lastK s.resPart1 curK) curK 0 merCounts solidThresh = .ok s.neighbours) →
      ∃ ext, w.resPart1 = s.resPart1 ++ ext ∧
        solidPath merCounts solidThresh curK s.resPart1 ext := by
  intro fuel
  induction fuel with
  | zero =>
    intro s w hrun _ _
    simp only [linkWalk] at hrun
    split at hrun
    · cases hrun
    · cases hrun
      exact ⟨[], by simp, solidPath_nil _ _ _ _⟩
  | succ fuel ih =>
    intro s w hrun hres hnb
    have hsame : linkWalk merCounts tgtSeed curK LRLen solidThresh (fuel + 1) s = .ok s →
        ∃ ext, w.resPart1 = s.resPart1 ++ ext ∧
          solidPath merCounts solidThresh curK s.resPart1 ext := by
      intro h
      rw [h] at hrun
      cases hrun
      exact ⟨[], by simp, solidPath_nil _ _ _ _⟩
    obtain ⟨found, nb, dist, res⟩ := s
    match found, nb, hnb with
    | true, nb, _ => exact hsame (linkWalk_found _ _ _ _ _ _ _ rfl)
    | false, [], _ => exact hsame (by simp [linkWalk])
    | false, _ :: _ :: _, _ => exact hsame (by simp [linkWalk])
    | false, [curRead], hnb =>
      by_cases hd : dist ≤ LRLen
      · simp only at hres
        obtain ⟨_, hlen, c, hc, hlast, hsolid⟩ :=
          neighbour_of_lastK hk hres (hnb rfl) (List.mem_singleton_self curRead)
        have hres1 : curK ≤ (res ++ [c]).length := by simp; omega
        have hs1 : solidPath merCounts solidThresh curK res [c] :=
          solidPath_singleton (by rw [hlast]; exact hsolid)
        simp only [linkWalk, hd, if_true, substr_zero, bind_ok, hc, hlen] at hrun
        split at hrun
        · rw [linkWalk_found _ _ _ _ _ _ _ rfl] at hrun
          cases hrun
          exact ⟨[c], rfl, hs1⟩
        · rw [substrFrom_lastK hres1] at hrun
          simp only [bind_ok] at hrun
          rw [show (lastK (res ++ [c]) curK).length = curK from length_lastK hres1,
            sizeSub_of_le (le_refl _), Nat.sub_self, substrFrom_of_le (Nat.zero_le _),
            List.drop_zero] at hrun
          simp only [bind_ok] at hrun
          obtain ⟨nb1, hnb1, hrun⟩ := bind_eq_ok hrun
          obtain ⟨ext, hext, hs2⟩ := ih _ w hrun hres1 (fun _ => hnb1)
          simp only at hext hs2
          exact ⟨[c] ++ ext, by rw [hext]; simp, solidPath_append hs1 hs2⟩
      · exact hsame (by simp [linkWalk, hd])

/-- The base the second loop of `link` appends, or passes to the successful
recursive call, closes a solid k-mer. -/
theorem linkBranches_solid (callLink : Nat → Nat → List Char → List Char → Run LinkOut)
    (merCounts : MerCounts) (solidThresh : Nat)
    (tgtSeed : List Char) (curK dist : Nat) (res : List Char)
    (Q : List Char → List Char → Prop)
    (hcall : ∀ cb d ext mp out, callLink cb d ext mp = .ok out → out.ret ≠ 0 →
      Q ext out.missingPart) :
    ∀ (nbrs : List (List Char)) (cb : Nat) (mp : List Char) (b : BranchState),
      (∀ n ∈ nbrs, n.length = curK ∧
        ∃ c, charAt n (sub32 curK 1) = .ok c ∧ lastK (res ++ [c]) curK = n ∧
          solidThresh ≤ merCounts n) →
      linkBranches callLink tgtSeed curK dist res nbrs cb mp = .ok b →
      (b.returned = true → ∃ c, Q (res ++ [c]) b.missingPart ∧
        solidPath merCounts solidThresh curK res [c]) ∧
      (b.returned = false → b.found = true →
        ∃ c, b.resPart1 = res ++ [c] ∧ lastK (res ++ [c]) curK = tgtSeed.take curK ∧
          solidPath merCounts solidThresh curK res [c]) := by
  intro nbrs
  induction nbrs with
  | nil =>
    intro cb mp b _ hrun
    simp only [linkBranches] at hrun
    cases hrun
    exact ⟨fun h => by simp at h, fun _ h => by simp at h⟩
  | cons n rest ih =>
    intro cb mp b hn hrun
    obtain ⟨hlen, c, hc, hlast, hsolid⟩ := hn n (List.mem_cons_self _ _)
    have hs1 : solidPath merCounts solidThresh curK res [c] :=
      solidPath_singleton (by rw [hlast]; exact hsolid)
    simp only [linkBranches, substr_zero, bind_ok, hc, hlen] at hrun
    split at hrun
    · rename_i heq
      cases hrun
      refine ⟨fun h => by simp at h, fun _ _ => ⟨c, rfl, ?_, hs1⟩⟩
      rw [hlast]; exact heq
    · obtain ⟨out, hout, hrun⟩ := bind_eq_ok hrun
      split at hrun
      · rename_i hret
        cases hrun
        exact ⟨fun _ => ⟨c, hcall _ _ _ _ _ hout hret, hs1⟩, fun h => by simp at h⟩
      · exact ih _ _ b (fun m hm => hn m (List.mem_cons_of_mem _ hm)) hrun

/-- A successful call of `link` at order and base order `k`: the bases added
to the path lead to the first k-mer of the target seed through solid k-mers. -/
theorem link_solid (merCounts : MerCounts) (srcSeed tgtSeed : List Char)
    (visited : List (List Char)) (k LRLen maxBranches solidThresh minOrder : Nat)
    (hk : k < 2 ^ 32) :
    ∀ (fuel curBranches dist : Nat) (curExt missingPart : List Char) (out : LinkOut),
      k ≤ curExt.length →
      link merCounts srcSeed tgtSeed k visited curBranches dist curExt missingPart k
        LRLen maxBranches solidThresh minOrder fuel = .ok out →
      out.ret ≠ 0 →
      ∃ ext, k ≤ tgtSeed.length ∧ lastK (curExt ++ ext) k = tgtSeed.take k ∧
        out.missingPart = curExt ++ ext ++ tgtSeed.drop k ∧
        solidPath merCounts solidThresh k curExt ext := by
  intro fuel
  induction fuel with
  | zero =>
    intro cb dist curExt mp out _ hrun _
    simp only [link] at hrun
    cases hrun
  | succ fuel ih =>
    intro cb dist curExt mp out hext hrun hret
    have hlenle : ∀ (p : List Char), k ≤ p.length → lastK p k = tgtSeed.take k →
        k ≤ tgtSeed.length := by
      intro p hp h
      have := congrArg List.length h
      rw [length_lastK hp, List.length_take] at this
      omega
    simp only [link] at hrun
    split at hrun
    · cases hrun; exact absurd rfl hret
    · rw [substrFrom_lastK hext] at hrun
      simp only [bind_ok, substr_zero] at hrun
      rw [show (lastK curExt k).length = k from length_lastK hext,
        sizeSub_of_le (le_refl _), Nat.sub_self, substrFrom_of_le (Nat.zero_le _),
        List.drop_zero] at hrun
      simp only [bind_ok] at hrun
      obtain ⟨nb, hnb, hrun⟩ := bind_eq_ok hrun
      obtain ⟨w, hw, hrun⟩ := bind_eq_ok hrun
      obtain ⟨b, hb, hrun⟩ := bind_eq_ok hrun
      obtain ⟨_, hwnb, hwsame, hwfound⟩ :=
        linkWalk_spec merCounts tgtSeed k LRLen solidThresh hk fuel _ w hw hext
          (fun _ => hnb)
      obtain ⟨ext1, hext1, hsolid1⟩ :=
        linkWalk_solid merCounts tgtSeed k LRLen solidThresh hk fuel _ w hw hext
          (fun _ => hnb)
      simp only at hext1 hwsame hwfound hsolid1
      have hwlen : k ≤ w.resPart1.length := by rw [hext1]; simp; omega
      have hbspec : (b.returned = true → ∃ e,
            lastK (curExt ++ e) k = tgtSeed.take k ∧ k ≤ tgtSeed.length ∧
            b.missingPart = curExt ++ e ++ tgtSeed.drop k ∧
            solidPath merCounts solidThresh k curExt e) ∧
          (b.returned = false → b.found = true →
            ∃ e, b.resPart1 = curExt ++ e ∧ lastK (curExt ++ e) k = tgtSeed.take k ∧
              solidPath merCounts solidThresh k curExt e) := by
        split at hb
        · rename_i hcond
          have hspec := linkBranches_solid _ merCounts solidThresh tgtSeed k w.dist w.resPart1
            (fun ext mp1 => k ≤ ext.length → ∃ e,
              k ≤ tgtSeed.length ∧ lastK (ext ++ e) k = tgtSeed.take k ∧
              mp1 = ext ++ e ++ tgtSeed.drop k ∧ solidPath merCounts solidThresh k ext e)
            (by
              intro cb1 d1 ext2 mp1 out1 hcall hret1 hlen2
              exact ih cb1 d1 ext2 mp1 out1 hlen2 hcall hret1)
            w.neighbours cb mp b
            (by
              intro n hn
              obtain ⟨_, h2, c, h3, h4, h5⟩ := neighbour_of_lastK hk hwlen (hwnb hcond.1) hn
              exact ⟨h2, c, h3, h4, h5⟩)
            hb
          refine ⟨fun h => ?_, fun h1 h2 => ?_⟩
          · obtain ⟨c, hq, hsc⟩ := hspec.1 h
            obtain ⟨e, h1, h2, h3, h4⟩ := hq (by rw [hext1]; simp; omega)
            refine ⟨ext1 ++ ([c] ++ e), ?_, h1, ?_, ?_⟩
            · rw [← h2, hext1]; simp
            · rw [h3, hext1]; simp
            · refine solidPath_append hsolid1 ?_
              rw [← hext1]
              exact solidPath_append hsc h4
          · obtain ⟨c, h3, h4, hsc⟩ := hspec.2 h1 h2
            refine ⟨ext1 ++ [c], ?_, ?_, ?_⟩
            · rw [h3, hext1]; simp
            · rw [← List.append_assoc, ← hext1]; exact h4
            · refine solidPath_append hsolid1 ?_
              rw [← hext1]
              exact hsc
        · cases hb
          refine ⟨fun h => by simp at h, fun _ hf => ?_⟩
          simp only at hf ⊢
          refine ⟨ext1, hext1, ?_, hsolid1⟩
          rw [← hext1]
          by_cases h0 : decide (lastK curExt k = tgtSeed.take k) = true
          · have := hwsame h0
            rw [this]
            simpa using h0
          · exact (hwfound (by simpa using h0) hf).1
      split at hrun
      · rename_i hr
        cases hrun
        obtain ⟨e, h1, h2, h3, h4⟩ := hbspec.1 hr
        exact ⟨e, h2, h1, h3, h4⟩
      · rename_i hr
        split at hrun
        · cases hrun; exact absurd rfl hret
        · rename_i hf
          obtain ⟨rest, hrest, hrun⟩ := bind_eq_ok hrun
          cases hrun
          obtain ⟨e, h1, h2, h3⟩ := hbspec.2 (by simpa using hr) (by simpa using hf)
          have hkt := hlenle (curExt ++ e) (by simp; omega) h2
          rw [substrFrom_of_le hkt] at hrest
          cases hrest
          exact ⟨e, hkt, h2, by simp only; rw [h1], h3⟩

/-- C18: when `link` is called with order = base order = `k` and returns
success, write `P` for `missingPart` without its last `|tgtSeed| - k`
characters: `P` starts with the path given at the call and ends with the first
k-mer of the target seed, and for every index `j` with `|curExt| ≤ j < |P|`
the k-mer `P[j-k+1 .. j]` has a count of at least `solidThresh`. -/
theorem link_path_is_solid (merCounts : MerCounts) (srcSeed tgtSeed : List Char)
    (k : Nat) (visited : List (List Char)) (curBranches dist : Nat)
    (curExt missingPart : List Char)
    (LRLen maxBranches solidThresh minOrder fuel : Nat) (out : LinkOut)
    (hk : k < 2 ^ 32) (hext : k ≤ curExt.length)
    (hrun : link merCounts srcSeed tgtSeed k visited curBranches dist curExt missingPart k
      LRLen maxBranches solidThresh minOrder fuel = .ok out)
    (hret : out.ret = 1) :
    ∃ P, P = out.missingPart.take (out.missingPart.length - (tgtSeed.length - k)) ∧
      P.take curExt.length = curExt ∧ lastK P k = tgtSeed.take k ∧
      ∀ j, curExt.length ≤ j → j < P.length →
        solidThresh ≤ merCounts ((P.drop (j + 1 - k)).take k) := by
  obtain ⟨ext, hkt, hlast, hmp, hsolid⟩ :=
    link_solid merCounts srcSeed tgtSeed visited k LRLen maxBranches solidThresh minOrder hk
      fuel curBranches dist curExt missingPart out hext hrun (by rw [hret]; decide)
  refine ⟨curExt ++ ext, ?_, by simp, hlast, ?_⟩
  · rw [hmp]
    have : (curExt ++ ext ++ List.drop k tgtSeed).length - (tgtSeed.length - k)
        = (curExt ++ ext).length := by
      simp only [List.length_append, List.length_drop]
      omega
    rw [this, List.take_left]
  · intro j hj1 hj2
    rw [List.length_append] at hj2
    have hs := hsolid (j - curExt.length) (by omega)
    have htake : List.take (j + 1) (curExt ++ ext)
        = curExt ++ List.take (j - curExt.length + 1) ext := by
      rw [List.take_append_eq_append_take, List.take_of_length_le (by omega),
        show j + 1 - curExt.length = j - curExt.length + 1 by omega]
    rw [← htake] at hs
    unfold lastK at hs
    rw [List.length_take, List.length_append, Nat.min_eq_left (by omega), List.drop_take,
      show j + 1 - (j + 1 - k) = k by omega] at hs
    exact hs

/-- Witness of `link_path_is_solid`: in the detour table the path from `ACGT`
to the target seed `GTCAAA` is `ACGTCA`, through `CGTC` and `GTCA`. -/
theorem link_path_is_solid_witness :
    (4 < 2 ^ 32 ∧ 4 ≤ ['A', 'C', 'G', 'T'].length ∧
      link detourCounts ['A', 'C', 'G', 'T'] ['G', 'T', 'C', 'A', 'A', 'A'] 4 [] 0 0
        ['A', 'C', 'G', 'T'] ['X'] 4 100 5 1 1 10 =
        .ok { ret := 1, curBranches := 2,
              missingPart := ['A', 'C', 'G', 'T', 'C', 'A', 'A', 'A'] } ∧
      (1 : Int) = 1) ∧
    ∃ P, P = List.take (['A', 'C', 'G', 'T', 'C', 'A', 'A', 'A'].length -
        (['G', 'T', 'C', 'A', 'A', 'A'].length - 4)) ['A', 'C', 'G', 'T', 'C', 'A', 'A', 'A'] ∧
      P.take ['A', 'C', 'G', 'T'].length = ['A', 'C', 'G', 'T'] ∧
      lastK P 4 = List.take 4 ['G', 'T', 'C', 'A', 'A', 'A'] ∧
      ∀ j, ['A', 'C', 'G', 'T'].length ≤ j → j < P.length →
        1 ≤ detourCounts ((P.drop (j + 1 - 4)).take 4) :=
  ⟨by decide,
   link_path_is_solid detourCounts ['A', 'C', 'G', 'T'] ['G', 'T', 'C', 'A', 'A', 'A'] 4 []
    0 0 ['A', 'C', 'G', 'T'] ['X'] 100 5 1 1 10
    { ret := 1, curBranches := 2, missingPart := ['A', 'C', 'G', 'T', 'C', 'A', 'A', 'A'] }
    (by decide) (by decide) (by decide) rfl⟩

/-! ## Aligned entries of a pile -/

/-- C15 (the code at the failing input): window (2, 9), one forward-strand
alignment with query span 5..6 strictly inside it, target span 5..6 of a
stored read of `tLength = 11` bases, `merSize = 1`. The inclusion test of line
183 is false for this alignment, and the pile holds the template slice only;
the target substring from 2 to 9 is not appended. -/
theorem alignment_inside_window_is_skipped :
    (2 < insideAlignment.qStart ∧ insideAlignment.qEnd < 9 ∧
      insideAlignment.tStart ≤ insideAlignment.tEnd ∧
      insideAlignment.tEnd ≤ insideAlignment.tLength - 1 ∧
      (scenarioSequences insideAlignment.tName).length = insideAlignment.tLength) ∧
    spansWindow insideAlignment 2 9 0 = false ∧
    getAlignmentPileSeq id [insideAlignment] 2 4 0 scenarioSequences 2 9 1 =
      .ok [['A', 'A', 'C', 'G', 'T', 'G', 'G', 'G']] := by
  decide

/-- The inclusion test of line 183 is false for every alignment whose query
span lies strictly inside the window, so the branch of lines 185-189 is never
taken. -/
theorem spansWindow_inside (al : Alignment) (qBeg end_ shift : Nat)
    (h1 : qBeg < al.qStart) (h2 : al.qEnd < end_) :
    spansWindow al qBeg end_ shift = false := by
  simp only [spansWindow, decide_eq_false_iff_not]
  omega

end Consent
